import Mathlib

/-!
Verification development for the drive-scanner service.

This file gives a shallow embedding of the two core subsystems of the
repository and proves properties about them:

* the batch planner of preparation_planner.py
  (plan_concatenation, generate_and_upload_diff), and
* the change-sync engine of drive_listener.py
  (get_full_path, run_patch_workflow, run_full_scan_workflow and the
  change-processing branch of the main loop).

Pure functions of the source are translated directly; stateful code is
modelled by explicit state passing; remote-API calls are modelled by
oracle fields of an environment record; Python exceptions are modelled
by Option results.  Python dicts are modelled as association lists with
insert-keeps-position / last-write-wins semantics, which matches dict
insertion-order behaviour.
-/

namespace DriveScanner

/-! ## Generic helpers -/

/-- Chars of a string before the first underscore.  This models
the Python expression batch_id.split('_')[0]. -/
def catOf (s : String) : String :=
  String.mk (s.toList.takeWhile (fun c => c ≠ '_'))

/-- Decimal digits of a positive number, fuel-driven.  Models Python str(n). -/
def natStrAux : Nat → Nat → List Char
  | 0, _ => []
  | fuel + 1, n =>
    if n = 0 then []
    else natStrAux fuel (n / 10) ++ [Char.ofNat (48 + n % 10)]

/-- Decimal rendering of a natural number; models Python str(n). -/
def natStr (n : Nat) : String :=
  if n = 0 then "0" else String.mk (natStrAux (n + 1) n)

/-- Boolean string prefix test over the character lists; models
Python str.startswith. -/
def strStartsWith (s pre : String) : Bool :=
  pre.toList.isPrefixOf s.toList

/-- Keep only the first occurrence of each element; models the element
set of a Python list read in insertion order. -/
def dedupFirst : List String → List String
  | [] => []
  | x :: rest => x :: (dedupFirst rest).filter (fun y => y ≠ x)

/-! ## Batch planner data model (preparation_planner.py) -/

/-- One processing task, as produced by get_task_for_file: only the
fields read by plan_concatenation and the diff generator are modelled. -/
structure PTask where
  source_file_id : String
  task_type : String
  output_format : String
  estimated_size_bytes : Nat
  deriving DecidableEq, Repr

/-- One concatenation batch.  The derived display field total_size_mb
(a rounding of the total size) is not modelled. -/
structure PBatch where
  batch_id : String
  source_tasks : List PTask
  deriving DecidableEq, Repr

/-- The concatenation plan: a dict from file type (category) to its list
of batches, modelled as an insertion-ordered association list. -/
abbrev CatPlan := List (String × List PBatch)

/-- The relevant part of a previous plan file. -/
structure LastPlan where
  processing_tasks : List PTask
  concatenation_plan : CatPlan
  deriving DecidableEq

/-- Total of estimated_size_bytes over a task list; models
sum(t['estimated_size_bytes'] for t in ...). -/
def totalSize (ts : List PTask) : Nat :=
  (ts.map (·.estimated_size_bytes)).sum

/-- Dict read new_concatenation_plan[file_type] (default []). -/
def getCat (p : CatPlan) (cat : String) : List PBatch :=
  ((p.find? (fun q => q.1 = cat)).map (·.2)).getD []

/-- Dict write new_concatenation_plan[file_type] = bl: replace the value
at the existing key position, else append the key (defaultdict touch). -/
def setCat : CatPlan → String → List PBatch → CatPlan
  | [], cat, bl => [(cat, bl)]
  | q :: rest, cat, bl =>
    if q.1 = cat then (cat, bl) :: rest else q :: setCat rest cat bl

/-- Dict insert that keeps the position of an existing key and otherwise
appends, keyed by an arbitrary projection. -/
def insertKeepPosBy (key : α → String) : List α → α → List α
  | [], a => [a]
  | b :: rest, a =>
    if key b = key a then a :: rest else b :: insertKeepPosBy key rest a

/-- Last-match lookup in the current task list; models reading
current_tasks_map[id] where the dict was built by a comprehension
(later entries overwrite earlier ones). -/
def lookupCur (cur : List PTask) (id : String) : Option PTask :=
  cur.reverse.find? (fun t => t.source_file_id = id)

/-- Rebuild one old batch's member list: drop members whose id was
deleted (present in the old task ids but absent from the current map),
take the current task record otherwise; a member that is neither deleted
nor current raises KeyError in the source, modelled as none. -/
def rebuildMembers (cur : List PTask) (oldIds : List String) :
    List PTask → Option (List PTask)
  | [] => some []
  | m :: rest =>
    match lookupCur cur m.source_file_id with
    | some t => (rebuildMembers cur oldIds rest).map (fun ms => t :: ms)
    | none =>
      if m.source_file_id ∈ oldIds then rebuildMembers cur oldIds rest
      else none

/-- Append a batch at the end of a category's batch list. -/
def appendBatchAt (p : CatPlan) (cat : String) (b : PBatch) : CatPlan :=
  setCat p cat (getCat p cat ++ [b])

/-- The first loop of plan_concatenation: rebuild every previous batch
from the current task records, keeping nonempty rebuilt batches under
the category given by the batch id's text before the first underscore. -/
def rebuildStage (cur : List PTask) (oldIds : List String) :
    CatPlan → List PBatch → Option CatPlan
  | p, [] => some p
  | p, b :: rest =>
    match rebuildMembers cur oldIds b.source_tasks with
    | none => none
    | some ms =>
      let p' := if ms.isEmpty then p
                else appendBatchAt p (catOf b.batch_id) ⟨b.batch_id, ms⟩
      rebuildStage cur oldIds p' rest

/-- The second loop of plan_concatenation: remove every batch whose
rebuilt total exceeds the limit, and collect the ids of the tasks of the
removed batches (they are poured back into the set of tasks to place). -/
def deconstructStage (limit : Nat) (p : CatPlan) : CatPlan × List String :=
  (p.map (fun q => (q.1, q.2.filter (fun b => totalSize b.source_tasks ≤ limit))),
   (p.flatMap (fun q =>
      q.2.filter (fun b => ¬ (totalSize b.source_tasks ≤ limit)))).flatMap
     (fun b => b.source_tasks.map (·.source_file_id)))

/-- Index of the batch the source would pick for a task of weight w:
Python sorts the eligible batches (current total + w within the limit)
by current total ascending with a stable sort and takes the first, i.e.
the first-listed batch of minimal current total among the eligible. -/
def pickTarget (limit w : Nat) : List PBatch → Option Nat
  | [] => none
  | b :: rest =>
    let t := totalSize b.source_tasks
    if t + w ≤ limit then
      match pickTarget limit w rest with
      | none => some 0
      | some j =>
        match rest[j]? with
        | some bj => if t ≤ totalSize bj.source_tasks then some 0 else some (j + 1)
        | none => some 0
    else
      (pickTarget limit w rest).map (· + 1)

/-- Append a task to the batch at position i of a batch list. -/
def appendTaskAt (bl : List PBatch) (i : Nat) (t : PTask) : List PBatch :=
  match bl[i]? with
  | some b => bl.set i ⟨b.batch_id, b.source_tasks ++ [t]⟩
  | none => bl

/-- Mint a batch id of the shape cat_batch_counter that is not already
used in the list, starting from the given counter; models the while
loop of plan_concatenation (the fuel is large enough to always find a
free id, by pigeonhole). -/
def freshIdFrom (cat : String) (bl : List PBatch) : Nat → Nat → String
  | 0, c => cat ++ "_batch_" ++ natStr c
  | fuel + 1, c =>
    let cand := cat ++ "_batch_" ++ natStr c
    if bl.any (fun b => b.batch_id = cand) then freshIdFrom cat bl fuel (c + 1)
    else cand

/-- Place one task: into the first-listed eligible batch of minimal
current total of its category if one exists, else into a fresh batch
numbered from len(batches)+1 upwards skipping used ids. -/
def placeOne (limit : Nat) (p : CatPlan) (t : PTask) : CatPlan :=
  let cat := t.output_format
  let bl := getCat p cat
  match pickTarget limit t.estimated_size_bytes bl with
  | some i => setCat p cat (appendTaskAt bl i t)
  | none =>
    let bid := freshIdFrom cat bl (bl.length + 1) (bl.length + 1)
    setCat p cat (bl ++ [⟨bid, [t]⟩])

/-- The third loop of plan_concatenation: place every pooled task in
order. -/
def placeStage (limit : Nat) (p : CatPlan) (ts : List PTask) : CatPlan :=
  ts.foldl (placeOne limit) p

/-- Stable insertion into a list sorted by descending size: the new
task goes after every task of size greater than or equal to its own. -/
def insertDescBySize (t : PTask) : List PTask → List PTask
  | [] => [t]
  | u :: rest =>
    if t.estimated_size_bytes ≤ u.estimated_size_bytes then
      u :: insertDescBySize t rest
    else t :: u :: rest

/-- Stable sort by descending estimated_size_bytes; models
sorted(tasks, key=size, reverse=True). -/
def sortDescBySize (ts : List PTask) : List PTask :=
  ts.foldl (fun acc t => insertDescBySize t acc) []

/-- The flattened previous batches in insertion order with duplicate
batch ids collapsed in place; models the old_batches dict. -/
def oldBatchesOf (lp : LastPlan) : List PBatch :=
  (lp.concatenation_plan.flatMap (·.2)).foldl (insertKeepPosBy (·.batch_id)) []

/-- The ids of the tasks to place: the current ids absent from the old
plan, in first-occurrence order, then the ids of deconstructed batches;
models the new_task_ids set read in insertion order. -/
def poolIds (cur : List PTask) (oldIds deconIds : List String) : List String :=
  dedupFirst ((cur.map (·.source_file_id)).filter (fun i => ¬ i ∈ oldIds) ++ deconIds)

/-- The current task map's underlying list: tasks not typed IGNORE.
Dict reads over it use lookupCur (last write wins). -/
def currentTasks (tasks : List PTask) : List PTask :=
  tasks.filter (fun t => t.task_type ≠ "IGNORE")

/-- The old task ids: ids of every processing task of the previous
plan. -/
def oldIdsOf : Option LastPlan → List String
  | some lp => lp.processing_tasks.map (·.source_file_id)
  | none => []

/-- The old batches, or none without a previous plan. -/
def oldBatchesOpt : Option LastPlan → List PBatch
  | some lp => oldBatchesOf lp
  | none => []

/-- The tasks to place, sorted by descending size. -/
def poolTasks (limit : Nat) (cur : List PTask) (oldIds : List String)
    (p1 : CatPlan) : List PTask :=
  sortDescBySize
    ((poolIds cur oldIds (deconstructStage limit p1).2).filterMap (lookupCur cur))

/-- The tail of plan_concatenation after the rebuild loop: deconstruct
over-limit batches and place the pooled tasks. -/
def finishPlan (limit : Nat) (cur : List PTask) (oldIds : List String)
    (p1 : CatPlan) : CatPlan :=
  placeStage limit (deconstructStage limit p1).1 (poolTasks limit cur oldIds p1)

/-- plan_concatenation of preparation_planner.py.  The capacity limit is
passed explicitly (the source reads the module constant
CONCATENATION_SIZE_LIMIT_MB * 1024 * 1024); a KeyError of the source is
modelled as none. -/
def plan_concatenation (limit : Nat) (tasks : List PTask)
    (last_run_plan : Option LastPlan) : Option CatPlan :=
  (rebuildStage (currentTasks tasks) (oldIdsOf last_run_plan) []
      (oldBatchesOpt last_run_plan)).map
    (finishPlan limit (currentTasks tasks) (oldIdsOf last_run_plan))

/-- The byte form of the capacity limit actually used by the source:
CONCATENATION_SIZE_LIMIT_MB = 150 megabytes. -/
def CONCATENATION_SIZE_LIMIT_BYTES : Nat := 150 * 1024 * 1024

/-! ## Diff generation (generate_and_upload_diff) -/

/-- Batch-membership pairs of a batch list: each task tagged with the
id of its batch, in order. -/
def tagPairs (bl : List PBatch) : List (String × PTask) :=
  bl.flatMap (fun b => b.source_tasks.map (fun t => (b.batch_id, t)))

/-- Tagged batch-membership pairs of a plan, in plan order. -/
def flattenPairs (p : CatPlan) : List (String × PTask) :=
  p.flatMap (fun q => tagPairs q.2)

/-- Number of tasks of a task list carrying a given id. -/
def countTasks (ts : List PTask) (x : String) : Nat :=
  (ts.filter (fun t => t.source_file_id = x)).length

/-- Number of membership pairs of a batch list carrying a given id. -/
def countBatches (bl : List PBatch) (x : String) : Nat :=
  (bl.map (fun b => countTasks b.source_tasks x)).sum

/-- Number of occurrences of a string in a string list. -/
def countStr (l : List String) (x : String) : Nat :=
  (l.filter (fun y => y = x)).length

/-- The batch assignment map of a plan: the dict comprehension
file_id -> batch_id iterates all pairs and later pairs overwrite
earlier ones, i.e. the last matching pair wins. -/
def fileToBatch (p : CatPlan) (id : String) : Option String :=
  ((flattenPairs p).reverse.find? (fun pr => pr.2.source_file_id = id)).map (·.1)

/-- Number of pairs of a pair list carrying a given task id. -/
def countPairs (l : List (String × PTask)) (x : String) : Nat :=
  (l.filter (fun pr => pr.2.source_file_id = x)).length

/-- Number of membership pairs of a plan carrying a given task id. -/
def countId (p : CatPlan) (id : String) : Nat :=
  countPairs (flattenPairs p) id

inductive DiffKind where
  | ADDED
  | REMOVED
  | MOVED
  deriving DecidableEq, Repr

/-- One entry of the plan diff.  The source renders each entry as a
text line; the line's information content is modelled structurally. -/
structure DiffEntry where
  kind : DiffKind
  file_id : String
  old_batch : Option String
  new_batch : Option String
  deriving DecidableEq, Repr

/-- The entry generate_and_upload_diff emits for a file id whose batch
assignment changed. -/
def mkDiffEntry (id : String) (ob nb : Option String) : DiffEntry :=
  match ob, nb with
  | some o, some n => ⟨DiffKind.MOVED, id, some o, some n⟩
  | none, some n => ⟨DiffKind.ADDED, id, none, some n⟩
  | some o, none => ⟨DiffKind.REMOVED, id, some o, none⟩
  | none, none => ⟨DiffKind.MOVED, id, none, none⟩

/-- All file ids of two plans; models the key-set union
all_file_ids, read in first-occurrence order. -/
def allIds (o n : CatPlan) : List String :=
  dedupFirst ((flattenPairs o).map (·.2.source_file_id) ++
    (flattenPairs n).map (·.2.source_file_id))

/-- The diff loop of generate_and_upload_diff: one entry per file id
whose batch assignment differs between the two plans. -/
def genDiff (o n : CatPlan) : List DiffEntry :=
  (allIds o n).filterMap (fun id =>
    let ob := fileToBatch o id
    let nb := fileToBatch n id
    if ob = nb then none else some (mkDiffEntry id ob nb))

/-! ## Change-sync engine data model (drive_listener.py) -/

/-- The file payload of a change record, with the fields requested from
the change feed: changes(changeType,fileId,removed,file(parents,name,mimeType)). -/
structure FileData where
  parents : List String
  name : String
  mimeType : String
  deriving DecidableEq, Repr

/-- One change record of the feed.  A missing fileId is modelled as
none and changeType as a plain string (absent modelled by ""). -/
structure Change where
  changeType : String
  fileId : Option String
  removed : Bool
  file : Option FileData
  deriving DecidableEq, Repr

/-- One record of the Tree Cache Store (drive_scan.jsonl).  Records the
patch workflow derives from a change are stored in the source without an
id field (the spread of file(parents,name,mimeType) plus path and
indent); the id is kept here because it is never read back within the
one cycle being modelled, where it only reflects the cache key. -/
structure CacheItem where
  id : String
  name : String
  mimeType : String
  parents : List String
  path : String
  indent : Int
  deriving DecidableEq, Repr

/-- The minimal metadata get_full_path fetches: fields id,name,parents.
A missing name is rendered as Unknown by the source. -/
structure MetaInfo where
  name : Option String
  parents : List String
  deriving DecidableEq, Repr

/-- The environment of one listener cycle: the oracles for the remote
interactions of drive_listener.py.
fetchMeta models get_item_metadata during path resolution (none is an
API failure); rescan models _perform_scan(folder_id, path, indent);
uploadFolderFound and scanFileFound model the two find_drive_item_by_name
lookups at the start of run_patch_workflow; uploadOk models whether the
operations inside upload_file succeed (false is a failure that
upload_file catches and only logs, before the existing remote file was
replaced); fullScanResult models the full-scan enumeration of
run_full_scan_workflow (none is the failed root-metadata fetch that
makes it return False); fuel bounds the path-resolution recursion
(Python's recursion limit, whose RecursionError is also caught by the
patch workflow's exception handler). -/
structure ListenEnv where
  driveFolderId : String
  fetchMeta : String → Option MetaInfo
  rescan : String → String → Int → List CacheItem
  uploadFolderFound : Bool
  scanFileFound : Bool
  uploadOk : Bool
  fullScanResult : Option (List CacheItem)
  fuel : Nat

def UPLOAD_FOLDER_NAME : String := "3-NTBLM"

def REPORTS_SUBFOLDER_NAME : String := "Reports"

/-- The two script-managed artifact names the main loop ignores. -/
def managedNames : List String := ["drive_scan.jsonl", "matching_results.json"]

/-- First-match lookup in a string association list (dict read). -/
def lookupAssoc : List (String × α) → String → Option α
  | [], _ => none
  | kv :: rest, k => if kv.1 = k then some kv.2 else lookupAssoc rest k

/-- Dict deletion: remove the entry with the given key. -/
def eraseKey : List (String × α) → String → List (String × α)
  | [], _ => []
  | kv :: rest, k => if kv.1 = k then eraseKey rest k else kv :: eraseKey rest k

/-- get_full_path of drive_listener.py.  Returns the resolved path and
the updated memoization table path_cache; none models a raised
exception: a failed metadata fetch (the source then evaluates
item.get on None and raises AttributeError) or exhausted recursion
depth.  On none, no memoization escapes, as in the source, where the
workflow that owns the table falls back to a full scan. -/
def get_full_path (env : ListenEnv) (rootName : String) :
    Nat → String → List (String × String) → Option (String × List (String × String))
  | fuel, item_id, cache =>
    match lookupAssoc cache item_id with
    | some p => some (p, cache)
    | none =>
      match env.fetchMeta item_id with
      | none => none
      | some item =>
        if item.parents = [] ∨ item.parents.headD "" = env.driveFolderId then
          let path := rootName ++ "/" ++ item.name.getD "Unknown"
          some (path, insertKeepPosBy (·.1) cache (item_id, path))
        else
          match fuel with
          | 0 => none
          | fuel' + 1 =>
            match get_full_path env rootName fuel' (item.parents.headD "") cache with
            | none => none
            | some (pp, c') =>
              let my := pp ++ "/" ++ item.name.getD "Unknown"
              some (my, insertKeepPosBy (·.1) c' (item_id, my))

/-- Count of slash characters in a string; models path.count('/'). -/
def countSlash (s : String) : Nat :=
  (s.toList.filter (fun c => c = '/')).length

/-- The mutable state of the change loop of run_patch_workflow. -/
structure PatchState where
  cache : List (String × CacheItem)
  pathCache : List (String × String)
  rescanQueue : List (String × String × Int)
  matcher : Bool
  deriving Repr

/-- One iteration of the change loop of run_patch_workflow; none models
reaching a return run_full_scan_workflow(session) (drive-scoped change,
incomplete data) or a raised exception (failed path resolution). -/
def processChange (env : ListenEnv) (reportsPath rootName : String)
    (st : PatchState) (c : Change) : Option PatchState :=
  if c.changeType = "drive" then none
  else if c.removed then
    match c.fileId with
    | none => some st
    | some fid =>
      let m := st.matcher ||
        (match lookupAssoc st.cache fid with
         | some it => strStartsWith it.path reportsPath
         | none => false)
      some { st with cache := eraseKey st.cache fid, matcher := m }
  else
    match c.fileId, c.file with
    | some fid, some fd =>
      if fid = "" ∨ fd.parents = [] then none
      else
        match get_full_path env rootName env.fuel fid st.pathCache with
        | none => none
        | some (newPath, pc') =>
          let ind : Int := (countSlash newPath : Int) - 1
          let m := st.matcher || strStartsWith newPath reportsPath
          let rq :=
            if fd.mimeType = "application/vnd.google-apps.folder" then
              insertKeepPosBy (·.1) st.rescanQueue (fid, newPath, ind)
            else st.rescanQueue
          some { cache := insertKeepPosBy (·.1) st.cache
                   (fid, ⟨fid, fd.name, fd.mimeType, fd.parents, newPath, ind⟩),
                 pathCache := pc', rescanQueue := rq, matcher := m }
    | _, _ => none

/-- The change loop of run_patch_workflow applied in feed order. -/
def applyChanges (env : ListenEnv) (reportsPath rootName : String) :
    PatchState → List Change → Option PatchState
  | st, [] => some st
  | st, c :: cs =>
    match processChange env reportsPath rootName st c with
    | none => none
    | some st' => applyChanges env reportsPath rootName st' cs

/-- The re-listing of one changed folder: drop every cached record whose
path extends the folder's old path (taken from the originally downloaded
scan cache) and merge the fresh listing of the folder's subtree. -/
def applyOneRescan (env : ListenEnv) (origCache : List CacheItem)
    (cache : List (String × CacheItem)) (entry : String × String × Int) :
    List (String × CacheItem) :=
  let c1 :=
    match (origCache.find? (fun it => it.id = entry.1)).map (·.path) with
    | some op => cache.filter (fun kv => ¬ strStartsWith kv.2.path (op ++ "/"))
    | none => cache
  (env.rescan entry.1 entry.2.1 entry.2.2).foldl
    (fun c it => insertKeepPosBy (·.1) c (it.id, it)) c1

/-- The folders_to_rescan loop of run_patch_workflow. -/
def applyRescans (env : ListenEnv) (origCache : List CacheItem)
    (cache : List (String × CacheItem)) (q : List (String × String × Int)) :
    List (String × CacheItem) :=
  q.foldl (applyOneRescan env origCache) cache

/-- Lexicographic order on character lists by code point; models
Python's string comparison used when sorting by path. -/
def charListLe : List Char → List Char → Bool
  | [], _ => true
  | _ :: _, [] => false
  | a :: as, b :: bs =>
    if a.toNat < b.toNat then true
    else if b.toNat < a.toNat then false
    else charListLe as bs

/-- Code-point order on strings. -/
def pathLe (a b : String) : Bool :=
  charListLe a.toList b.toList

/-- Stable insertion into a list sorted ascending by path. -/
def insertByPath (it : CacheItem) : List CacheItem → List CacheItem
  | [] => [it]
  | u :: rest =>
    if pathLe u.path it.path then u :: insertByPath it rest
    else it :: u :: rest

/-- Stable ascending sort by path; models sorted(..., key=path). -/
def sortByPath (l : List CacheItem) : List CacheItem :=
  l.foldl (fun acc it => insertByPath it acc) []

/-- The outcome of a workflow call: the Python return value, the
resulting remote (persisted) copy of drive_scan.jsonl, whether the
full-scan workflow ran, and whether the report matcher was invoked. -/
structure WfResult where
  ok : Bool
  persisted : List CacheItem
  didFullScan : Bool
  matcher : Bool
  deriving DecidableEq, Repr

/-- run_full_scan_workflow of drive_listener.py: on a successful root
lookup it sorts the enumeration by path and uploads it (upload_file
catches its own failures), returning True; the remote cache is replaced
only when the upload folder was found and the upload succeeded. -/
def run_full_scan_workflow (env : ListenEnv) (persisted : List CacheItem) : WfResult :=
  match env.fullScanResult with
  | none => ⟨false, persisted, true, false⟩
  | some l =>
    let l' := sortByPath l
    ⟨true, if env.uploadFolderFound && env.uploadOk then l' else persisted, true, false⟩

/-- The root name read off the downloaded scan cache: the name of the
first record whose id is the tracked drive id, defaulting to ROOT. -/
def rootNameOf (env : ListenEnv) (scanCache : List CacheItem) : String :=
  ((scanCache.find? (fun it => it.id = env.driveFolderId)).map (·.name)).getD "ROOT"

/-- The monitored Reports folder path rootName/3-NTBLM/Reports. -/
def reportsPathOf (rootName : String) : String :=
  rootName ++ "/" ++ UPLOAD_FOLDER_NAME ++ "/" ++ REPORTS_SUBFOLDER_NAME

/-- The state at the start of the change loop: cache_by_id built from
the downloaded scan cache (last record wins on a duplicate id) and the
path cache seeded with the tracked root. -/
def initPatchState (env : ListenEnv) (scanCache : List CacheItem) : PatchState :=
  ⟨scanCache.foldl (fun m it => insertKeepPosBy (·.1) m (it.id, it)) [],
   [(env.driveFolderId, rootNameOf env scanCache)], [], false⟩

/-- run_patch_workflow of drive_listener.py.  The downloaded
drive_scan.jsonl is the current persisted cache.  Every fallback path of
the source (missing upload folder or scan file, drive-scoped change,
incomplete change data, exception during path resolution) returns
run_full_scan_workflow's result. -/
def run_patch_workflow (env : ListenEnv) (changes : List Change)
    (persisted : List CacheItem) : WfResult :=
  if ¬ env.uploadFolderFound then run_full_scan_workflow env persisted
  else if ¬ env.scanFileFound then run_full_scan_workflow env persisted
  else
    match applyChanges env (reportsPathOf (rootNameOf env persisted))
        (rootNameOf env persisted) (initPatchState env persisted) changes with
    | none => run_full_scan_workflow env persisted
    | some st =>
      let merged := applyRescans env persisted st.cache st.rescanQueue
      let updated := sortByPath (merged.map (·.2))
      ⟨true, if env.uploadOk then updated else persisted, false, st.matcher⟩

/-- The filter of the main loop: drop drive-scoped records and records
naming the script-managed artifacts. -/
def relevantFilter (c : Change) : Bool :=
  if c.changeType = "drive" then false
  else
    match c.file with
    | some fd => ¬ (fd.name ∈ managedNames)
    | none => true

/-- The persisted outcome of one pass of the change-processing branch of
the listener's main loop: the change token that save_state writes and
the remote Tree Cache Store after the pass. -/
structure CycleResult where
  token : String
  persisted : List CacheItem
  didFullScan : Bool
  deriving DecidableEq, Repr

/-- One pass of the change-processing branch of main (the branch taken
when no scheduled rescan is due and list_changes returned the list
changes and the cursor newToken): filter the changes, run the patch
workflow when relevant changes remain, advance the token exactly when
the workflow returned True, and persist the state. -/
def mainCycle (env : ListenEnv) (lastToken newToken : String)
    (changes : List Change) (persisted : List CacheItem) : CycleResult :=
  if changes.isEmpty then ⟨newToken, persisted, false⟩
  else
    let relevant := changes.filter relevantFilter
    if relevant.isEmpty then ⟨newToken, persisted, false⟩
    else
      let r := run_patch_workflow env relevant persisted
      ⟨if r.ok then newToken else lastToken, r.persisted, r.didFullScan⟩

/-! ## Concrete instances used by the claim theorems -/

/-- A root record of a tracked drive named R with id root. -/
def rootItem : CacheItem :=
  ⟨"root", "R", "application/vnd.google-apps.folder", [], "R", -1⟩

/-- A cached folder F directly under the root. -/
def folderF : CacheItem :=
  ⟨"F", "F", "application/vnd.google-apps.folder", [], "R/F", 0⟩

/-- A cached file inside folder F (a descendant of F by path). -/
def childC : CacheItem :=
  ⟨"C", "c.txt", "text/plain", [], "R/F/c.txt", 1⟩

/-- C1: an environment where the only remote failure is the upload of
the updated drive_scan.jsonl (upload_file catches it and only logs). -/
def c1Env : ListenEnv :=
  ⟨"root",
   fun i => if i = "Y" then some ⟨some "y.txt", ["root"]⟩ else none,
   fun _ _ _ => [], true, true, false, some [rootItem], 20⟩

/-- C1: the same environment with a succeeding upload. -/
def c1EnvOk : ListenEnv :=
  ⟨"root",
   fun i => if i = "Y" then some ⟨some "y.txt", ["root"]⟩ else none,
   fun _ _ _ => [], true, true, true, some [rootItem], 20⟩

/-- C1: a change feed adding one ordinary file Y under the root. -/
def c1Change : Change :=
  ⟨"file", some "Y", false, some ⟨["root"], "y.txt", "text/plain"⟩⟩

/-- C2: an environment where every remote interaction succeeds. -/
def c2Env : ListenEnv :=
  ⟨"root", fun _ => none, fun _ _ _ => [], true, true, true, some [rootItem], 20⟩

/-- C2: a tombstone change record for folder F. -/
def c2Tomb : Change := ⟨"file", some "F", true, none⟩

/-- C3: the scenario items A:50, B:60, C:40 of category pdf. -/
def c3tasks : List PTask :=
  [⟨"A", "DIRECT_INCLUDE", "pdf", 50⟩,
   ⟨"B", "DIRECT_INCLUDE", "pdf", 60⟩,
   ⟨"C", "DIRECT_INCLUDE", "pdf", 40⟩]

/-- C3: the plan the source computes for the scenario: B alone in
pdf_batch_1, A and C together in pdf_batch_2. -/
def c3plan : CatPlan :=
  [("pdf",
    [⟨"pdf_batch_1", [⟨"B", "DIRECT_INCLUDE", "pdf", 60⟩]⟩,
     ⟨"pdf_batch_2",
      [⟨"A", "DIRECT_INCLUDE", "pdf", 50⟩, ⟨"C", "DIRECT_INCLUDE", "pdf", 40⟩]⟩])]

/-- C3: a batch list with totals 60 and 50, used to exercise the
placement rule at weight 40. -/
def c3wbl : List PBatch :=
  [⟨"pdf_batch_1", [⟨"B", "DIRECT_INCLUDE", "pdf", 60⟩]⟩,
   ⟨"pdf_batch_2", [⟨"A", "DIRECT_INCLUDE", "pdf", 50⟩]⟩]

/-- C4: one oversized and one small task. -/
def c4tasks : List PTask :=
  [⟨"X", "DIRECT_INCLUDE", "pdf", 200⟩, ⟨"Y", "DIRECT_INCLUDE", "pdf", 50⟩]

/-- C4: the plan the source computes for c4tasks from an empty state. -/
def c4plan : CatPlan :=
  [("pdf",
    [⟨"pdf_batch_1", [⟨"X", "DIRECT_INCLUDE", "pdf", 200⟩]⟩,
     ⟨"pdf_batch_2", [⟨"Y", "DIRECT_INCLUDE", "pdf", 50⟩]⟩])]

/-- C5: two tasks that together exceed a limit of 100. -/
def c5tasks : List PTask :=
  [⟨"X", "DIRECT_INCLUDE", "pdf", 60⟩, ⟨"Y", "DIRECT_INCLUDE", "pdf", 50⟩]

/-- C5: a previous plan keeping both tasks in one batch (now 110 over
the limit of 100, e.g. after weight growth). -/
def c5last : LastPlan :=
  ⟨c5tasks, [("pdf", [⟨"pdf_batch_1", c5tasks⟩])]⟩

/-- C6: an oversized task and a small task; the first run places them
into pdf_batch_1 (oversized, alone) and pdf_batch_2. -/
def c6tasks : List PTask :=
  [⟨"X", "DIRECT_INCLUDE", "pdf", 200⟩, ⟨"Y", "DIRECT_INCLUDE", "pdf", 50⟩]

/-- C6: the previous run's output for c6tasks, fed back unchanged. -/
def c6last : LastPlan :=
  ⟨c6tasks,
   [("pdf",
     [⟨"pdf_batch_1", [⟨"X", "DIRECT_INCLUDE", "pdf", 200⟩]⟩,
      ⟨"pdf_batch_2", [⟨"Y", "DIRECT_INCLUDE", "pdf", 50⟩]⟩])]⟩

/-- C6: a stable previous plan for the amended-stability witness: two
tasks in one fitting batch. -/
def c6stableTasks : List PTask :=
  [⟨"P", "DIRECT_INCLUDE", "pdf", 50⟩, ⟨"Q", "DIRECT_INCLUDE", "pdf", 40⟩]

/-- C6: the previous plan holding both witness tasks in one batch. -/
def c6stableLast : LastPlan :=
  ⟨c6stableTasks, [("pdf", [⟨"pdf_batch_1", c6stableTasks⟩])]⟩

/-- C7: an environment whose metadata endpoint always fails. -/
def c7Env : ListenEnv :=
  ⟨"root", fun _ => none, fun _ _ _ => [], true, true, true, some [rootItem], 20⟩

/-- C7: a change for a file Z whose metadata cannot be fetched. -/
def c7Change : Change :=
  ⟨"file", some "Z", false, some ⟨["root"], "z.txt", "text/plain"⟩⟩

/-- C8: an environment where every remote interaction succeeds. -/
def c8Env : ListenEnv :=
  ⟨"root", fun _ => none, fun _ _ _ => [], true, true, true, some [rootItem], 20⟩

/-- C8: a change record reporting a structural change of the tracked
shared drive itself. -/
def c8Drive : Change := ⟨"drive", none, false, none⟩

/-- C8: a change record with a file payload lacking parent linkage. -/
def c8NoParents : Change :=
  ⟨"file", some "W", false, some ⟨[], "w.txt", "text/plain"⟩⟩

/-- C10: an environment where every remote interaction succeeds. -/
def c10Env : ListenEnv :=
  ⟨"root", fun _ => none, fun _ _ _ => [], true, true, true, some [rootItem], 20⟩

/-- C10: a change touching the script-managed drive_scan.jsonl. -/
def c10Change : Change :=
  ⟨"file", some "S", false, some ⟨["root"], "drive_scan.jsonl", "application/json"⟩⟩

/-- C9: a small old plan for the diff witness. -/
def c9old : CatPlan :=
  [("pdf",
    [⟨"pdf_batch_1", [⟨"A", "DIRECT_INCLUDE", "pdf", 50⟩]⟩,
     ⟨"pdf_batch_2", [⟨"B", "DIRECT_INCLUDE", "pdf", 60⟩]⟩])]

/-- C9: a small new plan for the diff witness: A moved, B unchanged,
D added. -/
def c9new : CatPlan :=
  [("pdf",
    [⟨"pdf_batch_2",
      [⟨"B", "DIRECT_INCLUDE", "pdf", 60⟩, ⟨"A", "DIRECT_INCLUDE", "pdf", 50⟩]⟩,
     ⟨"pdf_batch_3", [⟨"D", "DIRECT_INCLUDE", "pdf", 10⟩]⟩])]

/-! ## Claim theorems: concrete evaluations -/

/-- Claim C1, failing run of the code: with one ordinary change and an
upload of the updated cache that fails (an error upload_file only logs),
the cycle still advances and persists the change token while the
persisted Tree Cache Store stays what it was, so the cursor points past
changes that were never applied to the persisted cache; the second
conjunct shows the same cycle with a succeeding upload does change the
persisted cache, i.e. the patch was real. -/
theorem C1_token_advances_despite_failed_persist :
    mainCycle c1Env "t1" "t2" [c1Change] [rootItem] = ⟨"t2", [rootItem], false⟩ ∧
    mainCycle c1EnvOk "t1" "t2" [c1Change] [rootItem] =
      ⟨"t2", [rootItem, ⟨"Y", "y.txt", "text/plain", ["root"], "R/y.txt", 0⟩], false⟩ := by
  decide

/-- Claim C2 is false on the code: a tombstone for folder F removes
only F's own record; the cached descendant at path R/F/c.txt (a path
extending R/F) survives the patch, while the claim requires every
cached descendant of F to be deleted by path prefix. -/
theorem C2_counterexample :
    strStartsWith childC.path (folderF.path ++ "/") = true ∧
    run_patch_workflow c2Env [c2Tomb] [rootItem, folderF, childC] =
      ⟨true, [rootItem, childC], false, false⟩ := by
  decide

/-- Claim C3 is false on the code: on items A:50, B:60, C:40 with
capacity 100 and empty previous state the planner returns
pdf_batch_1 with B alone and pdf_batch_2 with A and C together, so A
shares a batch with C, whereas the claimed best-fit output places A
alone (no renaming of batches makes the two assignments agree). -/
theorem C3_counterexample :
    plan_concatenation 100 c3tasks none = some c3plan ∧
    fileToBatch c3plan "A" = fileToBatch c3plan "C" ∧
    fileToBatch c3plan "A" ≠ fileToBatch c3plan "B" := by
  decide

/-- Claim C5 is false on the code: the previous batch pdf_batch_1 holds
X:60 and Y:50, totalling 110 over the limit 100.  The claim requires
evicting largest-first (only X) and keeping Y in pdf_batch_1; the code
dissolves the whole batch and re-places both, leaving Y in a fresh
pdf_batch_2. -/
theorem C5_counterexample :
    (plan_concatenation 100 c5tasks (some c5last)).map (fun p => fileToBatch p "Y")
      = some (some "pdf_batch_2") ∧
    (plan_concatenation 100 c5tasks (some c5last)).map (fun p => fileToBatch p "X")
      = some (some "pdf_batch_1") := by
  decide

/-- Claim C6 is false on the code: feeding the planner its own previous
output (same items X:200, Y:50, same batches) moves X from pdf_batch_1
to pdf_batch_3 and so produces a MOVED diff entry, because the
oversized singleton pdf_batch_1 is deconstructed and re-minted under a
fresh sequence number; the second conjunct checks the previous plan is
exactly the planner's own first-run output on the same items. -/
theorem C6_counterexample :
    (plan_concatenation 100 c6tasks (some c6last)).map
        (fun p => genDiff c6last.concatenation_plan p)
      = some [⟨DiffKind.MOVED, "X", some "pdf_batch_1", some "pdf_batch_3"⟩] ∧
    plan_concatenation 100 c6tasks none = some c6last.concatenation_plan := by
  decide

/-- Claim C8 is false on the code for drive-scoped records: a cycle
whose feed holds a record with changeType drive performs no full rescan
at all (the main loop silently filters the record out) and still
advances the token, while the claim requires abandoning the patch and
running a full rescan. -/
theorem C8_counterexample :
    mainCycle c8Env "t1" "t2" [c8Drive] [rootItem] = ⟨"t2", [rootItem], false⟩ := by
  decide

/-! ## Helper lemmas: association lists and the change loop -/

theorem lookupAssoc_eraseKey_self {α : Type} (l : List (String × α)) (k : String) :
    lookupAssoc (eraseKey l k) k = none := by
  induction l with
  | nil => rfl
  | cons kv rest ih =>
    by_cases h : kv.1 = k
    · simpa [eraseKey, h] using ih
    · simpa [eraseKey, lookupAssoc, h] using ih

theorem lookupAssoc_eraseKey_ne {α : Type} (l : List (String × α)) (k k' : String)
    (h : k' ≠ k) : lookupAssoc (eraseKey l k) k' = lookupAssoc l k' := by
  induction l with
  | nil => rfl
  | cons kv rest ih =>
    by_cases h1 : kv.1 = k
    · simpa [eraseKey, lookupAssoc, h1, Ne.symm h] using ih
    · by_cases h2 : kv.1 = k'
      · simp [eraseKey, lookupAssoc, h1, h2, h]
      · simpa [eraseKey, lookupAssoc, h1, h2] using ih

theorem applyChanges_append (env : ListenEnv) (rp rn : String) (st : PatchState)
    (l1 l2 : List Change) :
    applyChanges env rp rn st (l1 ++ l2) =
      match applyChanges env rp rn st l1 with
      | none => none
      | some st' => applyChanges env rp rn st' l2 := by
  induction l1 generalizing st with
  | nil => rfl
  | cons c cs ih =>
    simp only [List.cons_append, applyChanges]
    cases processChange env rp rn st c with
    | none => rfl
    | some st' => exact ih st'

theorem filter_eq_nil_of_all_false {α : Type} {l : List α} {p : α → Bool}
    (h : ∀ a ∈ l, p a = false) : l.filter p = [] := by
  induction l with
  | nil => rfl
  | cons a as ih =>
    simp [List.filter_cons, h a (List.mem_cons_self a as),
      ih (fun b hb => h b (List.mem_cons_of_mem a hb))]

theorem relevantFilter_false_of_drive {c : Change} (h : c.changeType = "drive") :
    relevantFilter c = false := by
  simp [relevantFilter, h]

theorem relevantFilter_false_of_managed {c : Change}
    (h : ∃ fd, c.file = some fd ∧ fd.name ∈ managedNames) :
    relevantFilter c = false := by
  obtain ⟨fd, hcf, hmem⟩ := h
  by_cases hd : c.changeType = "drive" <;> simp [relevantFilter, hd, hcf, hmem]

theorem mainCycle_of_all_filtered (env : ListenEnv) (lastToken newToken : String)
    (changes : List Change) (persisted : List CacheItem)
    (h : ∀ c ∈ changes, relevantFilter c = false) :
    mainCycle env lastToken newToken changes persisted = ⟨newToken, persisted, false⟩ := by
  cases changes with
  | nil => rfl
  | cons c cs =>
    have hfil : (c :: cs).filter relevantFilter = [] := filter_eq_nil_of_all_false h
    simp [mainCycle, hfil]

/-! ## Claim theorems: the change-sync engine -/

/-- Claim C2 (amended): applying a tombstone change deletes exactly the
tombstoned item's own record from the cache: afterwards the item's id
resolves to nothing, every other id (in particular every descendant)
resolves as before, and the path cache and re-list queue are untouched,
so descendants are not removed by path prefix. -/
theorem C2_amended_tombstone_deletes_only_item
    (env : ListenEnv) (reportsPath rootName : String) (st : PatchState)
    (c : Change) (fid : String)
    (hdrive : c.changeType ≠ "drive") (hrem : c.removed = true)
    (hfid : c.fileId = some fid) :
    ∃ st', processChange env reportsPath rootName st c = some st' ∧
      st'.cache = eraseKey st.cache fid ∧
      lookupAssoc st'.cache fid = none ∧
      (∀ k, k ≠ fid → lookupAssoc st'.cache k = lookupAssoc st.cache k) ∧
      st'.pathCache = st.pathCache ∧ st'.rescanQueue = st.rescanQueue := by
  have hstep : processChange env reportsPath rootName st c =
      some { st with cache := eraseKey st.cache fid,
                     matcher := st.matcher ||
                       (match lookupAssoc st.cache fid with
                        | some it => strStartsWith it.path reportsPath
                        | none => false) } := by
    simp [processChange, hdrive, hrem, hfid]
  exact ⟨_, hstep, rfl, lookupAssoc_eraseKey_self _ _,
    fun k hk => lookupAssoc_eraseKey_ne _ _ _ hk, rfl, rfl⟩

/-- Claim C2 witness: the amended tombstone behaviour at the concrete
tombstone for folder F over a cache holding F and its descendant. -/
theorem C2_amended_witness :
    (processChange c2Env "R/3-NTBLM/Reports" "R"
        ⟨[("F", folderF), ("C", childC)], [("root", "R")], [], false⟩ c2Tomb).isSome = true := by
  obtain ⟨st', h, -, -, -, -, -⟩ :=
    C2_amended_tombstone_deletes_only_item c2Env "R/3-NTBLM/Reports" "R"
      ⟨[("F", folderF), ("C", childC)], [("root", "R")], [], false⟩ c2Tomb "F"
      (by decide) rfl rfl
  rw [h]
  rfl

/-- Claim C7: if the metadata fetch for an identifier fails during path
resolution, resolution returns nothing at any recursion depth and over
any memoization table not already holding the identifier (so no partial
or placeholder path is memoized), and the patch workflow that meets
such a change abandons the patch and returns the full-rescan result, so
the in-memory patched cache is never persisted. -/
theorem C7_unresolvable_id_forces_full_rescan
    (env : ListenEnv) (persisted : List CacheItem) (pre rest : List Change)
    (fid : String) (fd : FileData) (ct : String) (st : PatchState)
    (hup : env.uploadFolderFound = true) (hsf : env.scanFileFound = true)
    (hpre : applyChanges env (reportsPathOf (rootNameOf env persisted))
      (rootNameOf env persisted) (initPatchState env persisted) pre = some st)
    (hct : ct ≠ "drive") (hfid : fid ≠ "") (hpar : fd.parents ≠ [])
    (hmiss : lookupAssoc st.pathCache fid = none)
    (hfail : env.fetchMeta fid = none) :
    (∀ fuel cache, lookupAssoc cache fid = none →
      get_full_path env (rootNameOf env persisted) fuel fid cache = none) ∧
    run_patch_workflow env (pre ++ ⟨ct, some fid, false, some fd⟩ :: rest) persisted
      = run_full_scan_workflow env persisted := by
  have hres : ∀ fuel cache, lookupAssoc cache fid = none →
      get_full_path env (rootNameOf env persisted) fuel fid cache = none := by
    intro fuel cache hc
    simp [get_full_path, hc, hfail]
  refine ⟨hres, ?_⟩
  have hone : processChange env (reportsPathOf (rootNameOf env persisted))
      (rootNameOf env persisted) st ⟨ct, some fid, false, some fd⟩ = none := by
    simp [processChange, hct, hfid, hpar, hres env.fuel st.pathCache hmiss]
  simp only [run_patch_workflow, hup, hsf]
  rw [applyChanges_append, hpre]
  simp [applyChanges, hone]

/-- Claim C7 witness: the failure behaviour at a concrete change for a
file Z whose metadata endpoint fails. -/
theorem C7_witness :
    get_full_path c7Env (rootNameOf c7Env [rootItem]) 20 "Z"
      (initPatchState c7Env [rootItem]).pathCache = none ∧
    run_patch_workflow c7Env [c7Change] [rootItem]
      = run_full_scan_workflow c7Env [rootItem] := by
  have h := C7_unresolvable_id_forces_full_rescan c7Env [rootItem] [] [] "Z"
    ⟨["root"], "z.txt", "text/plain"⟩ "file" (initPatchState c7Env [rootItem])
    rfl rfl rfl (by decide) (by decide) (by decide) (by decide) rfl
  exact ⟨h.1 20 _ (by decide), h.2⟩

/-- Claim C8 (amended): a non-tombstone record with incomplete data
(no file id, empty file id, no file payload, or no parent linkage)
reaching the patch workflow makes it abandon the whole patch and return
the full-rescan result; drive-scoped records, by contrast, are filtered
out by the main loop before the patch workflow, and a cycle whose
records are all drive-scoped performs no rescan, leaves the persisted
cache untouched, and still advances the token. -/
theorem C8_amended_incomplete_aborts_drive_filtered :
    (∀ (env : ListenEnv) (persisted : List CacheItem) (pre rest : List Change)
       (c : Change) (st : PatchState),
       env.uploadFolderFound = true → env.scanFileFound = true →
       applyChanges env (reportsPathOf (rootNameOf env persisted))
         (rootNameOf env persisted) (initPatchState env persisted) pre = some st →
       c.changeType ≠ "drive" → c.removed = false →
       (c.fileId = none ∨ c.fileId = some "" ∨ c.file = none ∨
         (∃ fd, c.file = some fd ∧ fd.parents = [])) →
       run_patch_workflow env (pre ++ c :: rest) persisted
         = run_full_scan_workflow env persisted) ∧
    (∀ (env : ListenEnv) (lastToken newToken : String) (changes : List Change)
       (persisted : List CacheItem),
       changes ≠ [] → (∀ c ∈ changes, c.changeType = "drive") →
       mainCycle env lastToken newToken changes persisted
         = ⟨newToken, persisted, false⟩) := by
  constructor
  · intro env persisted pre rest c st hup hsf hpre hct hrem hinc
    have hone : processChange env (reportsPathOf (rootNameOf env persisted))
        (rootNameOf env persisted) st c = none := by
      rcases hinc with h | h | h | ⟨fd, hf, hp⟩
      · cases hcf : c.file <;> simp [processChange, hct, hrem, h, hcf]
      · cases hcf : c.file <;> simp [processChange, hct, hrem, h, hcf]
      · cases hcd : c.fileId <;> simp [processChange, hct, hrem, h, hcd]
      · cases hcd : c.fileId <;> simp [processChange, hct, hrem, hf, hp, hcd]
    simp only [run_patch_workflow, hup, hsf]
    rw [applyChanges_append, hpre]
    simp [applyChanges, hone]
  · intro env lastToken newToken changes persisted hne hall
    exact mainCycle_of_all_filtered env lastToken newToken changes persisted
      (fun c hc => relevantFilter_false_of_drive (hall c hc))

/-- Claim C8 witness: the amended behaviour at a concrete record with
no parent linkage and at a concrete all-drive-records cycle. -/
theorem C8_amended_witness :
    run_patch_workflow c8Env [c8NoParents] [rootItem]
      = run_full_scan_workflow c8Env [rootItem] ∧
    mainCycle c8Env "t1" "t2" [c8Drive, c8Drive] [rootItem] = ⟨"t2", [rootItem], false⟩ := by
  constructor
  · exact C8_amended_incomplete_aborts_drive_filtered.1 c8Env [rootItem] [] []
      c8NoParents (initPatchState c8Env [rootItem]) rfl rfl rfl (by decide) rfl
      (Or.inr (Or.inr (Or.inr ⟨⟨[], "w.txt", "text/plain"⟩, rfl, rfl⟩)))
  · exact C8_amended_incomplete_aborts_drive_filtered.2 c8Env "t1" "t2"
      [c8Drive, c8Drive] [rootItem] (by decide) (by decide)

/-- Claim C10: when every record of a nonempty cycle names one of the
script-managed artifacts drive_scan.jsonl or matching_results.json, the
main loop filters them all out before the patch workflow, no workflow
runs, the persisted Tree Cache Store is left unchanged, and the change
token is still advanced and persisted. -/
theorem C10_managed_artifact_cycle_advances_token_only
    (env : ListenEnv) (lastToken newToken : String) (changes : List Change)
    (persisted : List CacheItem)
    (hne : changes ≠ [])
    (hall : ∀ c ∈ changes, ∃ fd, c.file = some fd ∧ fd.name ∈ managedNames) :
    mainCycle env lastToken newToken changes persisted = ⟨newToken, persisted, false⟩ :=
  mainCycle_of_all_filtered env lastToken newToken changes persisted
    (fun c hc => relevantFilter_false_of_managed (hall c hc))

/-- Claim C10 witness: a concrete cycle whose only record names
drive_scan.jsonl. -/
theorem dedupFirst_mem {l : List String} {x : String} : x ∈ dedupFirst l ↔ x ∈ l := by
  induction l with
  | nil => simp [dedupFirst]
  | cons a as ih =>
    by_cases h : x = a
    · simp [dedupFirst, h]
    · simp [dedupFirst, List.mem_filter, h, ih]

theorem dedupFirst_nodup (l : List String) : (dedupFirst l).Nodup := by
  induction l with
  | nil => exact List.nodup_nil
  | cons a as ih =>
    refine List.Nodup.cons ?_ (List.Nodup.filter _ ih)
    intro hmem
    have h2 := (List.mem_filter.mp hmem).2
    simp at h2

theorem filter_filterMap_nodup {l : List String} {f : String → Option DiffEntry}
    (hl : l.Nodup) (hf : ∀ i e, f i = some e → e.file_id = i) (id : String) :
    (l.filterMap f).filter (fun e => e.file_id = id) =
      if id ∈ l then (f id).toList else [] := by
  induction l with
  | nil => simp
  | cons x xs ih =>
    have hx : x ∉ xs := (List.nodup_cons.mp hl).1
    have ihx := ih (List.nodup_cons.mp hl).2
    by_cases hid : id = x
    · subst hid
      cases hfx : f id with
      | none => simp [List.filterMap_cons, hfx, ihx, hx]
      | some e =>
        have he : e.file_id = id := hf id e hfx
        simp [List.filterMap_cons, hfx, ihx, hx, List.filter_cons, he]
    · cases hfx : f x with
      | none => simpa [List.filterMap_cons, hfx, hid] using ihx
      | some e =>
        have he : e.file_id = x := hf x e hfx
        have hne : ¬ e.file_id = id := by rw [he]; exact fun hk => hid hk.symm
        simpa [List.filterMap_cons, hfx, List.filter_cons, hne, hid] using ihx

theorem fileToBatch_some_mem {p : CatPlan} {id b : String}
    (h : fileToBatch p id = some b) :
    ∃ pr ∈ flattenPairs p, pr.1 = b ∧ pr.2.source_file_id = id := by
  unfold fileToBatch at h
  cases hf : (flattenPairs p).reverse.find? (fun pr => pr.2.source_file_id = id) with
  | none => rw [hf] at h; exact absurd h (by simp)
  | some pr =>
    rw [hf] at h
    refine ⟨pr, List.mem_reverse.mp (List.mem_of_find?_eq_some hf), ?_, ?_⟩
    · simpa using h
    · simpa using List.find?_some hf

theorem mem_allIds_left {o n : CatPlan} {id b : String}
    (h : fileToBatch o id = some b) : id ∈ allIds o n := by
  obtain ⟨pr, hmem, -, hid⟩ := fileToBatch_some_mem h
  exact dedupFirst_mem.mpr
    (List.mem_append_left _ (hid ▸ List.mem_map_of_mem (·.2.source_file_id) hmem))

theorem mem_allIds_right {o n : CatPlan} {id b : String}
    (h : fileToBatch n id = some b) : id ∈ allIds o n := by
  obtain ⟨pr, hmem, -, hid⟩ := fileToBatch_some_mem h
  exact dedupFirst_mem.mpr
    (List.mem_append_right _ (hid ▸ List.mem_map_of_mem (·.2.source_file_id) hmem))

theorem genDiff_filter_eq (o n : CatPlan) (id : String) :
    (genDiff o n).filter (fun e => e.file_id = id) =
      if id ∈ allIds o n then
        (if fileToBatch o id = fileToBatch n id then none
         else some (mkDiffEntry id (fileToBatch o id) (fileToBatch n id))).toList
      else [] := by
  unfold genDiff
  refine filter_filterMap_nodup (dedupFirst_nodup _) ?_ id
  intro i e he
  by_cases hob : fileToBatch o i = fileToBatch n i
  · simp [hob] at he
  · simp only [if_neg hob, Option.some.injEq] at he
    cases hfo : fileToBatch o i <;> cases hfn : fileToBatch n i <;>
      rw [hfo, hfn] at he <;> simp [mkDiffEntry, ← he]

/-- Claim C9: the plan diff holds exactly one entry for each item whose
batch assignment changed between the two plans, with the right kind
(MOVED when assigned in both and the batch ids differ, ADDED when only
the new plan assigns a batch, REMOVED when only the old one does) and
no entry at all for an item whose assignment is unchanged. -/
theorem C9_diff_exactly_one_entry_per_changed_item (o n : CatPlan) (id : String) :
    (fileToBatch o id = fileToBatch n id →
      (genDiff o n).filter (fun e => e.file_id = id) = []) ∧
    (∀ a b, fileToBatch o id = some a → fileToBatch n id = some b → a ≠ b →
      (genDiff o n).filter (fun e => e.file_id = id)
        = [⟨DiffKind.MOVED, id, some a, some b⟩]) ∧
    (∀ b, fileToBatch o id = none → fileToBatch n id = some b →
      (genDiff o n).filter (fun e => e.file_id = id)
        = [⟨DiffKind.ADDED, id, none, some b⟩]) ∧
    (∀ a, fileToBatch o id = some a → fileToBatch n id = none →
      (genDiff o n).filter (fun e => e.file_id = id)
        = [⟨DiffKind.REMOVED, id, some a, none⟩]) := by
  refine ⟨fun heq => ?_, fun a b ho hn hab => ?_, fun b ho hn => ?_, fun a ho hn => ?_⟩
  · rw [genDiff_filter_eq, heq]
    simp
  · rw [genDiff_filter_eq, if_pos (mem_allIds_left ho), ho, hn,
      if_neg (by simp [hab])]
    simp [mkDiffEntry]
  · rw [genDiff_filter_eq, if_pos (mem_allIds_right hn), ho, hn, if_neg (by simp)]
    simp [mkDiffEntry]
  · rw [genDiff_filter_eq, if_pos (mem_allIds_left ho), ho, hn, if_neg (by simp)]
    simp [mkDiffEntry]

/-- Claim C9 witness: the MOVED case at the concrete pair of plans,
where item A moved from pdf_batch_1 to pdf_batch_2. -/
theorem C9_witness :
    (genDiff c9old c9new).filter (fun e => e.file_id = "A")
      = [⟨DiffKind.MOVED, "A", some "pdf_batch_1", some "pdf_batch_2"⟩] :=
  (C9_diff_exactly_one_entry_per_changed_item c9old c9new "A").2.1
    "pdf_batch_1" "pdf_batch_2" (by decide) (by decide) (by decide)

theorem C10_witness :
    mainCycle c10Env "t1" "t2" [c10Change] [rootItem, folderF]
      = ⟨"t2", [rootItem, folderF], false⟩ :=
  C10_managed_artifact_cycle_advances_token_only c10Env "t1" "t2" [c10Change]
    [rootItem, folderF] (by decide)
    (fun c hc => by
      rw [List.mem_singleton.mp hc]
      exact ⟨⟨["root"], "drive_scan.jsonl", "application/json"⟩, rfl, by decide⟩)

/-! ## Helper lemmas: plan counting algebra -/

theorem totalSize_append (a b : List PTask) :
    totalSize (a ++ b) = totalSize a + totalSize b := by
  simp [totalSize]

theorem countPairs_append (l1 l2 : List (String × PTask)) (x : String) :
    countPairs (l1 ++ l2) x = countPairs l1 x + countPairs l2 x := by
  simp [countPairs, List.filter_append]

theorem countTasks_append (l1 l2 : List PTask) (x : String) :
    countTasks (l1 ++ l2) x = countTasks l1 x + countTasks l2 x := by
  simp [countTasks, List.filter_append]

theorem countStr_append (l1 l2 : List String) (x : String) :
    countStr (l1 ++ l2) x = countStr l1 x + countStr l2 x := by
  simp [countStr, List.filter_append]

theorem countTasks_eq_zero {l : List PTask} {x : String} :
    countTasks l x = 0 ↔ ∀ t ∈ l, t.source_file_id ≠ x := by
  simp [countTasks, List.length_eq_zero, List.filter_eq_nil_iff]

theorem countStr_eq_zero {l : List String} {x : String} :
    countStr l x = 0 ↔ x ∉ l := by
  constructor
  · intro h hx
    simp [countStr, List.length_eq_zero, List.filter_eq_nil_iff] at h
    exact h x hx rfl
  · intro h
    simp only [countStr, List.length_eq_zero, List.filter_eq_nil_iff]
    intro y hy hxy
    exact h (by simpa [of_decide_eq_true hxy] using hy)

theorem countTasks_pos_of_mem {l : List PTask} {t : PTask} (h : t ∈ l) :
    1 ≤ countTasks l t.source_file_id := by
  have : t ∈ l.filter (fun u => u.source_file_id = t.source_file_id) :=
    List.mem_filter.mpr ⟨h, by simp⟩
  have hlen := List.length_pos.mpr (List.ne_nil_of_mem this)
  simpa [countTasks] using hlen

theorem tagPairs_append (a b : List PBatch) :
    tagPairs (a ++ b) = tagPairs a ++ tagPairs b := by
  simp [tagPairs]

theorem countPairs_map_tag (bid : String) (ts : List PTask) (x : String) :
    countPairs (ts.map (fun t => (bid, t))) x = countTasks ts x := by
  induction ts with
  | nil => rfl
  | cons t rest ih =>
    by_cases h : t.source_file_id = x <;>
      simp [countPairs, countTasks, List.filter_cons, h] at * <;> omega

theorem countPairs_tagPairs (bl : List PBatch) (x : String) :
    countPairs (tagPairs bl) x = countBatches bl x := by
  induction bl with
  | nil => rfl
  | cons b rest ih =>
    have : tagPairs (b :: rest)
        = b.source_tasks.map (fun t => (b.batch_id, t)) ++ tagPairs rest := by
      simp [tagPairs]
    rw [this, countPairs_append, countPairs_map_tag, ih]
    simp [countBatches]

theorem countBatches_append (a b : List PBatch) (x : String) :
    countBatches (a ++ b) x = countBatches a x + countBatches b x := by
  simp [countBatches]

theorem flattenPairs_cons (q : String × List PBatch) (rest : CatPlan) :
    flattenPairs (q :: rest) = tagPairs q.2 ++ flattenPairs rest := by
  simp [flattenPairs]

theorem countId_cons (q : String × List PBatch) (rest : CatPlan) (x : String) :
    countId (q :: rest) x = countBatches q.2 x + countId rest x := by
  rw [countId, flattenPairs_cons, countPairs_append, countPairs_tagPairs]
  rfl

theorem getCat_cons (k : String) (bl : List PBatch) (rest : CatPlan) (cat : String) :
    getCat ((k, bl) :: rest) cat = if k = cat then bl else getCat rest cat := by
  by_cases h : k = cat <;> simp [getCat, List.find?_cons, h]

theorem setCat_self_mem (p : CatPlan) (cat : String) (bl' : List PBatch) :
    (cat, bl') ∈ setCat p cat bl' := by
  induction p with
  | nil => exact List.mem_singleton.mpr rfl
  | cons q rest ih =>
    by_cases h : q.1 = cat
    · simp [setCat, h]
    · simp only [setCat, if_neg h]
      exact List.mem_cons_of_mem q ih

theorem setCat_entries {p : CatPlan} {cat : String} {bl' : List PBatch}
    {q : String × List PBatch} (h : q ∈ setCat p cat bl') :
    q = (cat, bl') ∨ q ∈ p := by
  induction p with
  | nil => simpa [setCat] using h
  | cons r rest ih =>
    by_cases hr : r.1 = cat
    · simp only [setCat, if_pos hr] at h
      rcases List.mem_cons.mp h with h | h
      · exact Or.inl h
      · exact Or.inr (List.mem_cons_of_mem r h)
    · simp only [setCat, if_neg hr] at h
      rcases List.mem_cons.mp h with h | h
      · exact Or.inr (h ▸ List.mem_cons_self r rest)
      · rcases ih h with h | h
        · exact Or.inl h
        · exact Or.inr (List.mem_cons_of_mem r h)

theorem countId_setCat (p : CatPlan) (cat : String) (bl' : List PBatch) (x : String) :
    countId (setCat p cat bl') x + countBatches (getCat p cat) x
      = countId p x + countBatches bl' x := by
  induction p with
  | nil =>
    show countId [(cat, bl')] x + countBatches (getCat ([] : CatPlan) cat) x
      = countId [] x + countBatches bl' x
    rw [countId_cons]
    simp [getCat, countId, countPairs, flattenPairs, countBatches]
  | cons q rest ih =>
    by_cases h : q.1 = cat
    · have hq : q = (q.1, q.2) := rfl
      rw [hq]
      simp only [setCat, if_pos h, getCat_cons, if_pos h, countId_cons]
      omega
    · have hq : q = (q.1, q.2) := rfl
      rw [hq]
      simp only [setCat, if_neg h, getCat_cons, if_neg h, countId_cons]
      omega

theorem mem_flattenPairs_of_entry {p : CatPlan} {cat : String} {bl : List PBatch}
    {pr : String × PTask} (hq : (cat, bl) ∈ p) (hpr : pr ∈ tagPairs bl) :
    pr ∈ flattenPairs p :=
  List.mem_flatMap.mpr ⟨(cat, bl), hq, hpr⟩

theorem flattenPairs_setCat_sub {p : CatPlan} {cat : String} {bl' : List PBatch}
    {pr : String × PTask} (h : pr ∈ flattenPairs (setCat p cat bl')) :
    pr ∈ flattenPairs p ∨ pr ∈ tagPairs bl' := by
  rcases List.mem_flatMap.mp h with ⟨q, hq, hpr⟩
  rcases setCat_entries hq with h' | h'
  · right
    rw [h'] at hpr
    exact hpr
  · exact Or.inl (List.mem_flatMap.mpr ⟨q, h', hpr⟩)

theorem flattenPairs_sub_setCat {p : CatPlan} {cat : String} {bl' : List PBatch}
    {pr : String × PTask} (h : pr ∈ flattenPairs p) :
    pr ∈ flattenPairs (setCat p cat bl') ∨ pr ∈ tagPairs (getCat p cat) := by
  induction p with
  | nil => simp [flattenPairs] at h
  | cons q rest ih =>
    rw [flattenPairs_cons, List.mem_append] at h
    by_cases hk : q.1 = cat
    · have hq : q = (q.1, q.2) := rfl
      rcases h with h | h
      · right
        rw [hq, getCat_cons, if_pos hk]
        exact h
      · left
        have : setCat (q :: rest) cat bl' = (cat, bl') :: rest := by
          simp [setCat, hk]
        rw [this, flattenPairs_cons, List.mem_append]
        exact Or.inr h
    · have hq : q = (q.1, q.2) := rfl
      have hset : setCat (q :: rest) cat bl' = q :: setCat rest cat bl' := by
        simp [setCat, hk]
      rcases h with h | h
      · left
        rw [hset, flattenPairs_cons, List.mem_append]
        exact Or.inl h
      · rcases ih h with h' | h'
        · left
          rw [hset, flattenPairs_cons, List.mem_append]
          exact Or.inr h'
        · right
          rw [hq, getCat_cons, if_neg hk]
          exact h'

theorem mem_flattenPairs_appendBatchAt {p : CatPlan} {cat : String} {b : PBatch}
    {pr : String × PTask} (h : pr ∈ flattenPairs p) :
    pr ∈ flattenPairs (appendBatchAt p cat b) := by
  unfold appendBatchAt
  rcases @flattenPairs_sub_setCat p cat (getCat p cat ++ [b]) pr h with h1 | h1
  · exact h1
  · exact mem_flattenPairs_of_entry (setCat_self_mem _ _ _)
      (by rw [tagPairs_append]; exact List.mem_append_left _ h1)

theorem tag_mem_appendBatchAt {p : CatPlan} {cat : String} {b : PBatch}
    {pr : String × PTask} (h : pr ∈ tagPairs [b]) :
    pr ∈ flattenPairs (appendBatchAt p cat b) :=
  mem_flattenPairs_of_entry (setCat_self_mem _ _ _)
    (by rw [tagPairs_append]; exact List.mem_append_right _ h)

theorem countId_appendBatchAt (p : CatPlan) (cat : String) (b : PBatch) (x : String) :
    countId (appendBatchAt p cat b) x = countId p x + countTasks b.source_tasks x := by
  have h := countId_setCat p cat (getCat p cat ++ [b]) x
  rw [countBatches_append] at h
  have hb : countBatches [b] x = countTasks b.source_tasks x := by
    simp [countBatches]
  unfold appendBatchAt
  omega

theorem mem_of_getCat {p : CatPlan} {cat : String} {b : PBatch}
    (h : b ∈ getCat p cat) : ∃ bl, (cat, bl) ∈ p ∧ b ∈ bl := by
  unfold getCat at h
  cases hf : p.find? (fun q => q.1 = cat) with
  | none => rw [hf] at h; simp at h
  | some q =>
    rw [hf] at h
    simp at h
    have hmem := List.mem_of_find?_eq_some hf
    have hcat : q.1 = cat := by simpa using List.find?_some hf
    exact ⟨q.2, by rw [← hcat]; exact hmem, h⟩

/-! ## Helper lemmas: placement -/

theorem pickTarget_none {limit w : Nat} :
    ∀ {bl : List PBatch}, pickTarget limit w bl = none →
      ∀ b ∈ bl, ¬ (totalSize b.source_tasks + w ≤ limit) := by
  intro bl
  induction bl with
  | nil => intro _ b hb; simp at hb
  | cons b rest ih =>
    intro h b' hb'
    by_cases h1 : totalSize b.source_tasks + w ≤ limit
    · exfalso
      simp only [pickTarget, if_pos h1] at h
      cases hr : pickTarget limit w rest with
      | none => simp [hr] at h
      | some j =>
        simp only [hr] at h
        cases hj : rest[j]? with
        | none => simp only [hj] at h; simp at h
        | some bj =>
          simp only [hj] at h
          by_cases ht : totalSize b.source_tasks ≤ totalSize bj.source_tasks <;>
            simp [ht] at h
    · simp only [pickTarget, if_neg h1] at h
      have hr : pickTarget limit w rest = none := by
        cases hr : pickTarget limit w rest with
        | none => rfl
        | some j => rw [hr] at h; exact absurd h (by simp)
      rcases List.mem_cons.mp hb' with h2 | h2
      · rw [h2]; exact h1
      · exact ih hr b' h2

theorem pickTarget_spec {limit w : Nat} :
    ∀ {bl : List PBatch} {i : Nat}, pickTarget limit w bl = some i →
      ∃ b, bl[i]? = some b ∧ totalSize b.source_tasks + w ≤ limit ∧
        (∀ b' ∈ bl, totalSize b'.source_tasks + w ≤ limit →
          totalSize b.source_tasks ≤ totalSize b'.source_tasks) ∧
        (∀ j, j < i → ∀ b', bl[j]? = some b' →
          totalSize b'.source_tasks + w ≤ limit →
          totalSize b.source_tasks < totalSize b'.source_tasks) := by
  intro bl
  induction bl with
  | nil => intro i h; simp [pickTarget] at h
  | cons b rest ih =>
    intro i h
    by_cases h1 : totalSize b.source_tasks + w ≤ limit
    · simp only [pickTarget, if_pos h1] at h
      cases hr : pickTarget limit w rest with
      | none =>
        simp only [hr] at h
        have hi : i = 0 := by simpa using h.symm
        subst hi
        refine ⟨b, by simp, h1, ?_, by omega⟩
        intro b' hb' hfit
        rcases List.mem_cons.mp hb' with h2 | h2
        · rw [h2]
        · exact absurd hfit (pickTarget_none hr b' h2)
      | some j =>
        simp only [hr] at h
        obtain ⟨bj, hbj, hjfit, hjmin, hjfirst⟩ := ih hr
        simp only [hbj] at h
        by_cases ht : totalSize b.source_tasks ≤ totalSize bj.source_tasks
        · rw [if_pos ht] at h
          have hi : i = 0 := by simpa using h.symm
          subst hi
          refine ⟨b, by simp, h1, ?_, by omega⟩
          intro b' hb' hfit
          rcases List.mem_cons.mp hb' with h2 | h2
          · rw [h2]
          · exact le_trans ht (hjmin b' h2 hfit)
        · rw [if_neg ht] at h
          have hi : i = j + 1 := by simpa using h.symm
          subst hi
          refine ⟨bj, by simpa using hbj, hjfit, ?_, ?_⟩
          · intro b' hb' hfit
            rcases List.mem_cons.mp hb' with h2 | h2
            · rw [h2]; omega
            · exact hjmin b' h2 hfit
          · intro k hk b' hb' hfit
            cases k with
            | zero =>
              have hbb : b = b' := by simpa using hb'
              rw [← hbb]
              omega
            | succ k' =>
              have hk' : k' < j := by omega
              exact hjfirst k' hk' b' (by simpa using hb') hfit
    · simp only [pickTarget, if_neg h1] at h
      rcases Option.map_eq_some'.mp h with ⟨i', hi', hEq⟩
      obtain ⟨bi, hbi, hifit, himin, hifirst⟩ := ih hi'
      subst hEq
      refine ⟨bi, by simpa using hbi, hifit, ?_, ?_⟩
      · intro b' hb' hfit
        rcases List.mem_cons.mp hb' with h2 | h2
        · exact absurd hfit (by rw [h2]; exact h1)
        · exact himin b' h2 hfit
      · intro k hk b' hb' hfit
        cases k with
        | zero =>
          have hbb : b = b' := by simpa using hb'
          exact absurd hfit (by rw [← hbb]; exact h1)
        | succ k' =>
          have hk' : k' < i' := by omega
          exact hifirst k' hk' b' (by simpa using hb') hfit

theorem mem_appendTaskAt {bl : List PBatch} {i : Nat} {t : PTask} {b : PBatch}
    (h : b ∈ appendTaskAt bl i t) :
    b ∈ bl ∨ ∃ b0, bl[i]? = some b0 ∧ b = ⟨b0.batch_id, b0.source_tasks ++ [t]⟩ := by
  unfold appendTaskAt at h
  cases hb0 : bl[i]? with
  | none => rw [hb0] at h; exact Or.inl h
  | some b0 =>
    rw [hb0] at h
    rcases List.mem_or_eq_of_mem_set h with h | h
    · exact Or.inl h
    · exact Or.inr ⟨b0, rfl, h⟩

theorem placeOne_cap {limit : Nat} {p : CatPlan} {t : PTask}
    (h : ∀ cat bl b, (cat, bl) ∈ p → b ∈ bl →
      totalSize b.source_tasks ≤ limit ∨
        (b.source_tasks.length = 1 ∧ limit < totalSize b.source_tasks)) :
    ∀ cat bl b, (cat, bl) ∈ placeOne limit p t → b ∈ bl →
      totalSize b.source_tasks ≤ limit ∨
        (b.source_tasks.length = 1 ∧ limit < totalSize b.source_tasks) := by
  intro cat bl b hq hb
  simp only [placeOne] at hq
  cases hpick : pickTarget limit t.estimated_size_bytes (getCat p t.output_format) with
  | some i =>
    rw [hpick] at hq
    rcases setCat_entries hq with h' | h'
    · obtain ⟨b0, hb0, hfit, -, -⟩ := pickTarget_spec hpick
      have hbl : bl = appendTaskAt (getCat p t.output_format) i t :=
        congrArg Prod.snd h'
      rw [hbl] at hb
      rcases mem_appendTaskAt hb with h2 | ⟨b1, hb1, h2⟩
      · obtain ⟨bl1, hbl1, hmem1⟩ := mem_of_getCat h2
        exact h _ bl1 b hbl1 hmem1
      · have hb01 : b0 = b1 := by rw [hb0] at hb1; exact Option.some.inj hb1
        subst hb01
        left
        rw [h2]
        simpa [totalSize_append, totalSize] using hfit
    · exact h cat bl b h' hb
  | none =>
    rw [hpick] at hq
    rcases setCat_entries hq with h' | h'
    · have hbl : bl = getCat p t.output_format ++
          [⟨freshIdFrom t.output_format (getCat p t.output_format)
              ((getCat p t.output_format).length + 1)
              ((getCat p t.output_format).length + 1), [t]⟩] :=
        congrArg Prod.snd h'
      rw [hbl] at hb
      rcases List.mem_append.mp hb with h2 | h2
      · obtain ⟨bl1, hbl1, hmem1⟩ := mem_of_getCat h2
        exact h _ bl1 b hbl1 hmem1
      · have hbv := List.mem_singleton.mp h2
        by_cases hw : t.estimated_size_bytes ≤ limit
        · left
          rw [hbv]
          simpa [totalSize] using hw
        · right
          rw [hbv]
          constructor
          · rfl
          · simpa [totalSize] using Nat.lt_of_not_le hw
    · exact h cat bl b h' hb

theorem placeStage_cap {limit : Nat} :
    ∀ (ts : List PTask) (p : CatPlan),
    (∀ cat bl b, (cat, bl) ∈ p → b ∈ bl →
      totalSize b.source_tasks ≤ limit ∨
        (b.source_tasks.length = 1 ∧ limit < totalSize b.source_tasks)) →
    ∀ cat bl b, (cat, bl) ∈ placeStage limit p ts → b ∈ bl →
      totalSize b.source_tasks ≤ limit ∨
        (b.source_tasks.length = 1 ∧ limit < totalSize b.source_tasks) := by
  intro ts
  induction ts with
  | nil => intro p h; simpa [placeStage] using h
  | cons t rest ih =>
    intro p h
    have := ih (placeOne limit p t) (placeOne_cap h)
    simpa [placeStage] using this

theorem deconstructStage_fst (limit : Nat) (p : CatPlan) :
    (deconstructStage limit p).1
      = p.map (fun q => (q.1, q.2.filter (fun b => totalSize b.source_tasks ≤ limit))) :=
  rfl

theorem deconstruct_fits {limit : Nat} {p : CatPlan} {cat : String}
    {bl : List PBatch} {b : PBatch}
    (hq : (cat, bl) ∈ (deconstructStage limit p).1) (hb : b ∈ bl) :
    totalSize b.source_tasks ≤ limit := by
  rw [deconstructStage_fst] at hq
  rcases List.mem_map.mp hq with ⟨q, hqp, hEq⟩
  have hbl : bl = q.2.filter (fun b => totalSize b.source_tasks ≤ limit) :=
    (congrArg Prod.snd hEq).symm
  rw [hbl] at hb
  exact of_decide_eq_true (List.mem_filter.mp hb).2

/-! ## Claim theorem: the capacity invariant -/

/-- Claim C4: every batch of any plan the planner returns totals at most
the capacity limit, except that an over-limit batch is always a
singleton (whose single member then itself weighs more than the limit,
its weight being the batch total). -/
theorem C4_capacity_invariant (limit : Nat) (tasks : List PTask)
    (lp : Option LastPlan) (p : CatPlan)
    (h : plan_concatenation limit tasks lp = some p) :
    ∀ cat bl b, (cat, bl) ∈ p → b ∈ bl →
      totalSize b.source_tasks ≤ limit ∨
        (b.source_tasks.length = 1 ∧ limit < totalSize b.source_tasks) := by
  unfold plan_concatenation at h
  cases hr : rebuildStage (currentTasks tasks) (oldIdsOf lp) [] (oldBatchesOpt lp) with
  | none => rw [hr] at h; exact absurd h (by simp)
  | some p1 =>
    rw [hr] at h
    have hp : p = finishPlan limit (currentTasks tasks) (oldIdsOf lp) p1 :=
      (Option.some.inj (by simpa using h)).symm
    rw [hp]
    unfold finishPlan
    exact placeStage_cap _ _
      (fun cat bl b hq hb => Or.inl (deconstruct_fits hq hb))

/-- Claim C4 witness: the invariant instantiated at the plan computed
for an oversized task X:200 and a small task Y:50 with limit 100. -/
theorem C4_witness :
    totalSize [(⟨"X", "DIRECT_INCLUDE", "pdf", 200⟩ : PTask)] ≤ 100 ∨
      (([(⟨"X", "DIRECT_INCLUDE", "pdf", 200⟩ : PTask)] : List PTask).length = 1 ∧
        100 < totalSize [(⟨"X", "DIRECT_INCLUDE", "pdf", 200⟩ : PTask)]) :=
  C4_capacity_invariant 100 c4tasks none c4plan (by decide) "pdf"
    [⟨"pdf_batch_1", [⟨"X", "DIRECT_INCLUDE", "pdf", 200⟩]⟩,
     ⟨"pdf_batch_2", [⟨"Y", "DIRECT_INCLUDE", "pdf", 50⟩]⟩]
    ⟨"pdf_batch_1", [⟨"X", "DIRECT_INCLUDE", "pdf", 200⟩]⟩
    (by decide) (by decide)

/-! ## Claim theorem: the placement rule -/

/-- Claim C3 (amended): the planner's placement is worst-fit, not
best-fit: the scenario A:50, B:60, C:40 at capacity 100 from an empty
state yields pdf_batch_1 with B alone and pdf_batch_2 with A and C; and
in general the batch the placement step picks for a task of weight w is
an eligible batch (its total plus w within the limit) of MINIMAL
current total weight among the eligible ones, the first-listed on ties
(every earlier-listed eligible batch has strictly greater total). -/
theorem C3_amended_worst_fit :
    (plan_concatenation 100 c3tasks none = some c3plan ∧
     fileToBatch c3plan "B" = some "pdf_batch_1" ∧
     fileToBatch c3plan "A" = some "pdf_batch_2" ∧
     fileToBatch c3plan "C" = some "pdf_batch_2") ∧
    (∀ (limit w : Nat) (bl : List PBatch) (i : Nat) (b : PBatch),
      pickTarget limit w bl = some i → bl[i]? = some b →
      totalSize b.source_tasks + w ≤ limit ∧
      (∀ b' ∈ bl, totalSize b'.source_tasks + w ≤ limit →
        totalSize b.source_tasks ≤ totalSize b'.source_tasks) ∧
      (∀ j, j < i → ∀ b', bl[j]? = some b' →
        totalSize b'.source_tasks + w ≤ limit →
        totalSize b.source_tasks < totalSize b'.source_tasks)) := by
  constructor
  · exact ⟨by decide, by decide, by decide, by decide⟩
  · intro limit w bl i b hpick hib
    obtain ⟨b0, hb0, hfit, hmin, hfirst⟩ := pickTarget_spec hpick
    have hbb : b0 = b := by rw [hb0] at hib; exact Option.some.inj hib
    subst hbb
    exact ⟨hfit, hmin, hfirst⟩

/-- Claim C3 witness: the placement rule exercised at weight 40 over
batches of totals 60 and 50 with limit 100: the picked batch (index 1,
total 50) is eligible. -/
theorem C3_amended_witness :
    totalSize (⟨"pdf_batch_2",
      [⟨"A", "DIRECT_INCLUDE", "pdf", 50⟩]⟩ : PBatch).source_tasks + 40 ≤ 100 :=
  (C3_amended_worst_fit.2 100 40 c3wbl 1
    ⟨"pdf_batch_2", [⟨"A", "DIRECT_INCLUDE", "pdf", 50⟩]⟩
    (by decide) (by decide)).1

/-! ## Helper lemmas: rebuild and deconstruction stages -/

theorem countTasks_cons (t : PTask) (l : List PTask) (x : String) :
    countTasks (t :: l) x = (if t.source_file_id = x then 1 else 0) + countTasks l x := by
  by_cases h : t.source_file_id = x <;>
    simp [countTasks, List.filter_cons, h] <;> omega

theorem countBatches_cons (b : PBatch) (bl : List PBatch) (x : String) :
    countBatches (b :: bl) x = countTasks b.source_tasks x + countBatches bl x := by
  simp [countBatches]

theorem lookupCur_id {cur : List PTask} {i : String} {t : PTask}
    (h : lookupCur cur i = some t) : t.source_file_id = i := by
  unfold lookupCur at h
  simpa using List.find?_some h

theorem lookupCur_mem {cur : List PTask} {i : String} {t : PTask}
    (h : lookupCur cur i = some t) : t ∈ cur := by
  unfold lookupCur at h
  exact List.mem_reverse.mp (List.mem_of_find?_eq_some h)

theorem rebuildMembers_count {cur : List PTask} {oldIds : List String} :
    ∀ {l ms : List PTask}, rebuildMembers cur oldIds l = some ms →
      ∀ x, countTasks ms x ≤ countTasks l x := by
  intro l
  induction l with
  | nil =>
    intro ms h x
    have hms : ms = [] := (Option.some.inj h).symm
    rw [hms]
  | cons m rest ih =>
    intro ms h x
    simp only [rebuildMembers] at h
    cases hl : lookupCur cur m.source_file_id with
    | some t =>
      rw [hl] at h
      rcases Option.map_eq_some'.mp h with ⟨ms', hms', hEq⟩
      have hid : t.source_file_id = m.source_file_id := lookupCur_id hl
      rw [← hEq, countTasks_cons, countTasks_cons, hid]
      have := ih hms' x
      omega
    | none =>
      rw [hl] at h
      by_cases hm : m.source_file_id ∈ oldIds
      · rw [if_pos hm] at h
        have := ih h x
        rw [countTasks_cons]
        omega
      · rw [if_neg hm] at h
        exact absurd h (by simp)

theorem rebuildMembers_self {cur : List PTask} {oldIds : List String} {l : List PTask}
    (h : ∀ t ∈ l, lookupCur cur t.source_file_id = some t) :
    rebuildMembers cur oldIds l = some l := by
  induction l with
  | nil => rfl
  | cons m rest ih =>
    have hm := h m (List.mem_cons_self m rest)
    simp [rebuildMembers, hm,
      ih (fun t ht => h t (List.mem_cons_of_mem _ ht))]

theorem rebuildStage_count {cur : List PTask} {oldIds : List String} :
    ∀ {bs : List PBatch} {p0 p1 : CatPlan},
      rebuildStage cur oldIds p0 bs = some p1 → ∀ x,
      countId p1 x = countId p0 x +
        (bs.map (fun b =>
          countTasks ((rebuildMembers cur oldIds b.source_tasks).getD []) x)).sum := by
  intro bs
  induction bs with
  | nil =>
    intro p0 p1 h x
    have hp : p1 = p0 := (Option.some.inj h).symm
    rw [hp]
    simp
  | cons b rest ih =>
    intro p0 p1 h x
    simp only [rebuildStage] at h
    cases hms : rebuildMembers cur oldIds b.source_tasks with
    | none => simp only [hms] at h; exact absurd h (by simp)
    | some ms =>
      simp only [hms] at h
      simp only [List.map_cons, List.sum_cons, hms, Option.getD_some]
      by_cases he : ms.isEmpty
      · rw [if_pos he] at h
        have hms0 : ms = [] := by
          cases ms with
          | nil => rfl
          | cons a as => simp [List.isEmpty] at he
        rw [ih h x, hms0]
        simp [countTasks]
      · rw [if_neg he] at h
        rw [ih h x, countId_appendBatchAt]
        dsimp only
        omega

theorem rebuildStage_flatten_mono {cur : List PTask} {oldIds : List String} :
    ∀ {bs : List PBatch} {p0 p1 : CatPlan},
      rebuildStage cur oldIds p0 bs = some p1 →
      ∀ pr ∈ flattenPairs p0, pr ∈ flattenPairs p1 := by
  intro bs
  induction bs with
  | nil =>
    intro p0 p1 h pr hpr
    have hp : p1 = p0 := (Option.some.inj h).symm
    rw [hp]
    exact hpr
  | cons b rest ih =>
    intro p0 p1 h pr hpr
    simp only [rebuildStage] at h
    cases hms : rebuildMembers cur oldIds b.source_tasks with
    | none => simp only [hms] at h; exact absurd h (by simp)
    | some ms =>
      simp only [hms] at h
      by_cases he : ms.isEmpty
      · rw [if_pos he] at h
        exact ih h pr hpr
      · rw [if_neg he] at h
        exact ih h pr (mem_flattenPairs_appendBatchAt hpr)

theorem rebuildStage_pair_mem {cur : List PTask} {oldIds : List String} :
    ∀ {bs : List PBatch} {p0 p1 : CatPlan} {b : PBatch} {ms : List PTask} {t : PTask},
      rebuildStage cur oldIds p0 bs = some p1 → b ∈ bs →
      rebuildMembers cur oldIds b.source_tasks = some ms → t ∈ ms →
      (b.batch_id, t) ∈ flattenPairs p1 := by
  intro bs
  induction bs with
  | nil => intro p0 p1 b ms t _ hb; simp at hb
  | cons b0 rest ih =>
    intro p0 p1 b ms t h hb hms ht
    simp only [rebuildStage] at h
    rcases List.mem_cons.mp hb with hb | hb
    · subst hb
      simp only [hms] at h
      have he : ms.isEmpty = false := by
        cases ms with
        | nil => cases ht
        | cons a as => rfl
      rw [he] at h
      simp only [Bool.false_eq_true, if_false] at h
      refine rebuildStage_flatten_mono h _ ?_
      refine tag_mem_appendBatchAt ?_
      have : (b.batch_id, t) ∈ ms.map (fun u => (b.batch_id, u)) :=
        List.mem_map_of_mem _ ht
      simpa [tagPairs] using this
    · cases hms0 : rebuildMembers cur oldIds b0.source_tasks with
      | none => simp only [hms0] at h; exact absurd h (by simp)
      | some ms0 =>
        simp only [hms0] at h
        by_cases he : ms0.isEmpty
        · rw [if_pos he] at h
          exact ih h hb hms ht
        · rw [if_neg he] at h
          exact ih h hb hms ht

theorem rebuildStage_batch_prov {cur : List PTask} {oldIds : List String} :
    ∀ {bs : List PBatch} {p0 p1 : CatPlan},
      rebuildStage cur oldIds p0 bs = some p1 →
      ∀ {cat : String} {bl : List PBatch} {b' : PBatch},
      (cat, bl) ∈ p1 → b' ∈ bl →
      (∃ q ∈ p0, b' ∈ q.2) ∨
      ∃ b ∈ bs, ∃ ms, rebuildMembers cur oldIds b.source_tasks = some ms ∧
        b' = ⟨b.batch_id, ms⟩ := by
  intro bs
  induction bs with
  | nil =>
    intro p0 p1 h cat bl b' hq hb'
    have hp : p1 = p0 := (Option.some.inj h).symm
    exact Or.inl ⟨(cat, bl), hp ▸ hq, hb'⟩
  | cons b0 rest ih =>
    intro p0 p1 h cat bl b' hq hb'
    simp only [rebuildStage] at h
    cases hms0 : rebuildMembers cur oldIds b0.source_tasks with
    | none => simp only [hms0] at h; exact absurd h (by simp)
    | some ms0 =>
      simp only [hms0] at h
      by_cases he : ms0.isEmpty
      · rw [if_pos he] at h
        rcases ih h hq hb' with h1 | ⟨b, hmem, ms, hms, hEq⟩
        · exact Or.inl h1
        · exact Or.inr ⟨b, List.mem_cons_of_mem b0 hmem, ms, hms, hEq⟩
      · rw [if_neg he] at h
        rcases ih h hq hb' with ⟨q, hqmem, hbq⟩ | ⟨b, hmem, ms, hms, hEq⟩
        · unfold appendBatchAt at hqmem
          rcases setCat_entries hqmem with h1 | h1
          · rw [h1] at hbq
            rcases List.mem_append.mp hbq with h2 | h2
            · obtain ⟨bl1, hbl1, hmem1⟩ := mem_of_getCat h2
              exact Or.inl ⟨(catOf b0.batch_id, bl1), hbl1, hmem1⟩
            · have hb0 := List.mem_singleton.mp h2
              exact Or.inr ⟨b0, List.mem_cons_self b0 rest, ms0, hms0, hb0⟩
          · exact Or.inl ⟨q, h1, hbq⟩
        · exact Or.inr ⟨b, List.mem_cons_of_mem b0 hmem, ms, hms, hEq⟩

theorem deconstructStage_snd (limit : Nat) (p : CatPlan) :
    (deconstructStage limit p).2
      = (p.flatMap (fun q =>
          q.2.filter (fun b => ¬ (totalSize b.source_tasks ≤ limit)))).flatMap
        (fun b => b.source_tasks.map (·.source_file_id)) :=
  rfl

theorem countStr_map_ids (ts : List PTask) (x : String) :
    countStr (ts.map (·.source_file_id)) x = countTasks ts x := by
  induction ts with
  | nil => rfl
  | cons t rest ih =>
    by_cases h : t.source_file_id = x <;>
      simp [countStr, countTasks, List.filter_cons, h] at * <;> omega

theorem countBatches_filter_partition (limit : Nat) (bl : List PBatch) (x : String) :
    countBatches (bl.filter (fun b => totalSize b.source_tasks ≤ limit)) x +
      countBatches (bl.filter (fun b => ¬ (totalSize b.source_tasks ≤ limit))) x
      = countBatches bl x := by
  induction bl with
  | nil => rfl
  | cons b rest ih =>
    rw [List.filter_cons, List.filter_cons]
    by_cases h : totalSize b.source_tasks ≤ limit
    · rw [if_pos (by simp [h]), if_neg (by simp [h]), countBatches_cons,
        countBatches_cons]
      omega
    · rw [if_neg (by simp [h]), if_pos (by simp [h]), countBatches_cons,
        countBatches_cons]
      omega

theorem countStr_flatMap_ids (bl : List PBatch) (x : String) :
    countStr (bl.flatMap (fun b => b.source_tasks.map (·.source_file_id))) x
      = countBatches bl x := by
  induction bl with
  | nil => rfl
  | cons b rest ih =>
    rw [List.flatMap_cons, countStr_append, countStr_map_ids, ih, countBatches_cons]

theorem countId_deconstruct (limit : Nat) (p : CatPlan) (x : String) :
    countId (deconstructStage limit p).1 x + countStr (deconstructStage limit p).2 x
      = countId p x := by
  induction p with
  | nil => rfl
  | cons q rest ih =>
    rw [deconstructStage_fst, deconstructStage_snd] at *
    rw [List.map_cons, List.flatMap_cons, List.flatMap_append, countId_cons,
      countStr_append, countStr_flatMap_ids, countId_cons]
    have := countBatches_filter_partition limit q.2 x
    dsimp only
    omega

theorem deconstruct_pair_mem {limit : Nat} {p : CatPlan} {cat : String}
    {bl : List PBatch} {b : PBatch} {t : PTask}
    (hq : (cat, bl) ∈ p) (hb : b ∈ bl)
    (hfits : totalSize b.source_tasks ≤ limit) (ht : t ∈ b.source_tasks) :
    (b.batch_id, t) ∈ flattenPairs (deconstructStage limit p).1 := by
  rw [deconstructStage_fst]
  refine mem_flattenPairs_of_entry
    (List.mem_map.mpr ⟨(cat, bl), hq, rfl⟩) ?_
  refine List.mem_flatMap.mpr ⟨b, List.mem_filter.mpr ⟨hb, by simpa using hfits⟩, ?_⟩
  exact List.mem_map_of_mem _ ht

theorem deconIds_mem {limit : Nat} {p : CatPlan} {cat : String}
    {bl : List PBatch} {b : PBatch} {t : PTask}
    (hq : (cat, bl) ∈ p) (hb : b ∈ bl)
    (hnofit : ¬ totalSize b.source_tasks ≤ limit) (ht : t ∈ b.source_tasks) :
    t.source_file_id ∈ (deconstructStage limit p).2 := by
  rw [deconstructStage_snd]
  refine List.mem_flatMap.mpr ⟨b, ?_, List.mem_map_of_mem _ ht⟩
  exact List.mem_flatMap.mpr
    ⟨(cat, bl), hq, List.mem_filter.mpr ⟨hb, by simpa using hnofit⟩⟩

theorem deconstruct_batch_prov {limit : Nat} {p : CatPlan} {cat : String}
    {bl : List PBatch} (hq : (cat, bl) ∈ (deconstructStage limit p).1) :
    ∃ bl0, (cat, bl0) ∈ p ∧
      bl = bl0.filter (fun b => totalSize b.source_tasks ≤ limit) := by
  rw [deconstructStage_fst] at hq
  rcases List.mem_map.mp hq with ⟨q, hqp, hEq⟩
  refine ⟨q.2, ?_, (congrArg Prod.snd hEq).symm⟩
  have hcat : q.1 = cat := congrArg Prod.fst hEq
  rw [← hcat]
  exact hqp

/-! ## Helper lemmas: placement counting and membership -/

theorem countBatches_set_append {bl : List PBatch} {i : Nat} {b0 : PBatch}
    (h : bl[i]? = some b0) (t : PTask) (x : String) :
    countBatches (bl.set i ⟨b0.batch_id, b0.source_tasks ++ [t]⟩) x
      = countBatches bl x + (if t.source_file_id = x then 1 else 0) := by
  induction bl generalizing i with
  | nil => simp at h
  | cons b rest ih =>
    cases i with
    | zero =>
      have hb : b = b0 := by simpa using h
      subst hb
      rw [List.set_cons_zero, countBatches_cons, countBatches_cons,
        countTasks_append, countTasks_cons]
      simp [countTasks]
      omega
    | succ i' =>
      have h' : rest[i']? = some b0 := by simpa using h
      rw [List.set_cons_succ, countBatches_cons, countBatches_cons, ih h']
      omega

theorem countId_placeOne (limit : Nat) (p : CatPlan) (t : PTask) (x : String) :
    countId (placeOne limit p t) x
      = countId p x + (if t.source_file_id = x then 1 else 0) := by
  simp only [placeOne]
  cases hpick : pickTarget limit t.estimated_size_bytes (getCat p t.output_format) with
  | some i =>
    dsimp only
    obtain ⟨b0, hb0, -, -, -⟩ := pickTarget_spec hpick
    have heq := countId_setCat p t.output_format
      (appendTaskAt (getCat p t.output_format) i t) x
    have happ : countBatches (appendTaskAt (getCat p t.output_format) i t) x
        = countBatches (getCat p t.output_format) x
          + (if t.source_file_id = x then 1 else 0) := by
      unfold appendTaskAt
      rw [hb0]
      exact countBatches_set_append hb0 t x
    omega
  | none =>
    dsimp only
    have heq := countId_setCat p t.output_format
      (getCat p t.output_format ++
        [⟨freshIdFrom t.output_format (getCat p t.output_format)
            ((getCat p t.output_format).length + 1)
            ((getCat p t.output_format).length + 1), [t]⟩]) x
    rw [countBatches_append] at heq
    have hone : countBatches
        [(⟨freshIdFrom t.output_format (getCat p t.output_format)
            ((getCat p t.output_format).length + 1)
            ((getCat p t.output_format).length + 1), [t]⟩ : PBatch)] x
        = (if t.source_file_id = x then 1 else 0) := by
      by_cases hx : t.source_file_id = x <;>
        simp [countBatches, countTasks, hx]
    omega

theorem countId_placeStage (limit : Nat) :
    ∀ (ts : List PTask) (p : CatPlan) (x : String),
    countId (placeStage limit p ts) x = countId p x + countTasks ts x := by
  intro ts
  induction ts with
  | nil => intro p x; simp [placeStage, countTasks]
  | cons t rest ih =>
    intro p x
    have h1 : placeStage limit p (t :: rest) = placeStage limit (placeOne limit p t) rest := by
      simp [placeStage]
    rw [h1, ih, countId_placeOne, countTasks_cons]
    omega

theorem tagPairs_set_append_sub {bl : List PBatch} {i : Nat} {b0 : PBatch}
    (h : bl[i]? = some b0) (t : PTask) {pr : String × PTask}
    (hpr : pr ∈ tagPairs bl) :
    pr ∈ tagPairs (bl.set i ⟨b0.batch_id, b0.source_tasks ++ [t]⟩) := by
  induction bl generalizing i with
  | nil => simp [tagPairs] at hpr
  | cons b rest ih =>
    have hcons : ∀ (c : PBatch) (cl : List PBatch), tagPairs (c :: cl)
        = c.source_tasks.map (fun u => (c.batch_id, u)) ++ tagPairs cl := by
      intro c cl
      simp [tagPairs]
    cases i with
    | zero =>
      have hb : b = b0 := by simpa using h
      subst hb
      rw [List.set_cons_zero]
      rw [hcons] at hpr
      rw [hcons]
      rcases List.mem_append.mp hpr with h1 | h1
      · refine List.mem_append_left _ ?_
        rcases List.mem_map.mp h1 with ⟨u, hu, hEq⟩
        exact List.mem_map.mpr ⟨u, List.mem_append_left _ hu, hEq⟩
      · exact List.mem_append_right _ h1
    | succ i' =>
      have h' : rest[i']? = some b0 := by simpa using h
      rw [List.set_cons_succ]
      rw [hcons] at hpr
      rw [hcons]
      rcases List.mem_append.mp hpr with h1 | h1
      · exact List.mem_append_left _ h1
      · exact List.mem_append_right _ (ih h' h1)

theorem mem_flattenPairs_placeOne {limit : Nat} {p : CatPlan} {t : PTask}
    {pr : String × PTask} (h : pr ∈ flattenPairs p) :
    pr ∈ flattenPairs (placeOne limit p t) := by
  simp only [placeOne]
  cases hpick : pickTarget limit t.estimated_size_bytes (getCat p t.output_format) with
  | some i =>
    obtain ⟨b0, hb0, -, -, -⟩ := pickTarget_spec hpick
    rcases @flattenPairs_sub_setCat p t.output_format
        (appendTaskAt (getCat p t.output_format) i t) pr h with h1 | h1
    · exact h1
    · refine mem_flattenPairs_of_entry (setCat_self_mem _ _ _) ?_
      unfold appendTaskAt
      rw [hb0]
      exact tagPairs_set_append_sub hb0 t h1
  | none =>
    rcases @flattenPairs_sub_setCat p t.output_format
        (getCat p t.output_format ++
          [⟨freshIdFrom t.output_format (getCat p t.output_format)
              ((getCat p t.output_format).length + 1)
              ((getCat p t.output_format).length + 1), [t]⟩]) pr h with h1 | h1
    · exact h1
    · refine mem_flattenPairs_of_entry (setCat_self_mem _ _ _) ?_
      rw [tagPairs_append]
      exact List.mem_append_left _ h1

theorem mem_flattenPairs_placeStage {limit : Nat} :
    ∀ {ts : List PTask} {p : CatPlan} {pr : String × PTask},
      pr ∈ flattenPairs p → pr ∈ flattenPairs (placeStage limit p ts) := by
  intro ts
  induction ts with
  | nil => intro p pr h; simpa [placeStage] using h
  | cons t rest ih =>
    intro p pr h
    have h1 : placeStage limit p (t :: rest)
        = placeStage limit (placeOne limit p t) rest := by
      simp [placeStage]
    rw [h1]
    exact ih (mem_flattenPairs_placeOne h)

/-! ## Helper lemmas: unique pairs and the assignment map -/

theorem find?_of_unique {α : Type} {l : List α} {p : α → Bool} {a : α}
    (hlen : (l.filter p).length = 1) (ha : a ∈ l) (hpa : p a = true) :
    l.find? p = some a := by
  induction l with
  | nil => cases ha
  | cons b rest ih =>
    by_cases hb : p b = true
    · have hfb : (b :: rest).filter p = b :: rest.filter p := by
        simp [List.filter_cons, hb]
      rw [hfb] at hlen
      have hrest : rest.filter p = [] := by
        have hl0 : (rest.filter p).length = 0 := by simpa using hlen
        exact List.length_eq_zero.mp hl0
      have hab : a = b := by
        rcases List.mem_cons.mp ha with h1 | h1
        · exact h1
        · exfalso
          have : a ∈ rest.filter p := List.mem_filter.mpr ⟨h1, hpa⟩
          rw [hrest] at this
          cases this
      rw [List.find?_cons_of_pos _ hb, hab]
    · have hfb : (b :: rest).filter p = rest.filter p := by
        simp [List.filter_cons, hb]
      rw [hfb] at hlen
      have hab : a ∈ rest := by
        rcases List.mem_cons.mp ha with h1 | h1
        · exact absurd (h1 ▸ hpa) hb
        · exact h1
      rw [List.find?_cons_of_neg _ hb]
      exact ih hlen hab

theorem countPairs_eq_zero {l : List (String × PTask)} {x : String} :
    countPairs l x = 0 ↔ ∀ pr ∈ l, pr.2.source_file_id ≠ x := by
  simp [countPairs, List.length_eq_zero, List.filter_eq_nil_iff]

theorem fileToBatch_of_unique {p : CatPlan} {x bid : String} {t : PTask}
    (hcount : countId p x = 1) (hmem : (bid, t) ∈ flattenPairs p)
    (hid : t.source_file_id = x) : fileToBatch p x = some bid := by
  unfold fileToBatch
  have h1 : ((flattenPairs p).reverse.filter
      (fun pr => pr.2.source_file_id = x)).length = 1 := by
    rw [List.filter_reverse, List.length_reverse]
    exact hcount
  have h2 := find?_of_unique h1 (List.mem_reverse.mpr hmem)
    (by simp [hid])
  rw [h2]
  rfl

theorem fileToBatch_of_zero {p : CatPlan} {x : String}
    (h : countId p x = 0) : fileToBatch p x = none := by
  unfold fileToBatch
  have h1 : (flattenPairs p).reverse.find?
      (fun pr => pr.2.source_file_id = x) = none := by
    apply List.find?_eq_none.mpr
    intro pr hpr
    have := countPairs_eq_zero.mp h pr (List.mem_reverse.mp hpr)
    simpa using this
  rw [h1]
  rfl

/-! ## Helper lemmas: the pool -/

theorem mem_insertDescBySize {t u : PTask} {l : List PTask} :
    t ∈ insertDescBySize u l ↔ t = u ∨ t ∈ l := by
  induction l with
  | nil => simp [insertDescBySize]
  | cons v rest ih =>
    by_cases h : u.estimated_size_bytes ≤ v.estimated_size_bytes
    · simp only [insertDescBySize, if_pos h, List.mem_cons, ih] <;> tauto
    · simp only [insertDescBySize, if_neg h, List.mem_cons] <;> tauto

theorem mem_sortDescBySize {ts : List PTask} {t : PTask} :
    t ∈ sortDescBySize ts ↔ t ∈ ts := by
  suffices h : ∀ (ts acc : List PTask),
      t ∈ ts.foldl (fun acc u => insertDescBySize u acc) acc ↔ t ∈ acc ∨ t ∈ ts by
    have := h ts []
    simpa [sortDescBySize] using this
  intro ts
  induction ts with
  | nil => intro acc; simp
  | cons u rest ih =>
    intro acc
    rw [List.foldl_cons, ih]
    rw [mem_insertDescBySize]
    simp only [List.mem_cons]
    tauto

theorem countTasks_insertDescBySize (u : PTask) (l : List PTask) (x : String) :
    countTasks (insertDescBySize u l) x
      = (if u.source_file_id = x then 1 else 0) + countTasks l x := by
  induction l with
  | nil => rw [insertDescBySize, countTasks_cons]
  | cons v rest ih =>
    by_cases h : u.estimated_size_bytes ≤ v.estimated_size_bytes
    · rw [insertDescBySize, if_pos h, countTasks_cons, ih, countTasks_cons]
      omega
    · rw [insertDescBySize, if_neg h, countTasks_cons, countTasks_cons]

theorem countTasks_sortDescBySize (ts : List PTask) (x : String) :
    countTasks (sortDescBySize ts) x = countTasks ts x := by
  suffices h : ∀ (ts acc : List PTask),
      countTasks (ts.foldl (fun acc u => insertDescBySize u acc) acc) x
        = countTasks acc x + countTasks ts x by
    have := h ts []
    simpa [sortDescBySize, countTasks] using this
  intro ts
  induction ts with
  | nil => intro acc; simp [countTasks]
  | cons u rest ih =>
    intro acc
    rw [List.foldl_cons, ih, countTasks_insertDescBySize, countTasks_cons]
    omega

theorem mem_poolIds {cur : List PTask} {oldIds deconIds : List String} {i : String} :
    i ∈ poolIds cur oldIds deconIds ↔
      ((i ∈ cur.map (·.source_file_id)) ∧ i ∉ oldIds) ∨ i ∈ deconIds := by
  unfold poolIds
  rw [dedupFirst_mem, List.mem_append, List.mem_filter]
  simp

theorem poolTasks_count_zero {limit : Nat} {cur : List PTask}
    {oldIds : List String} {p1 : CatPlan} {x : String}
    (hx : x ∉ poolIds cur oldIds (deconstructStage limit p1).2) :
    countTasks (poolTasks limit cur oldIds p1) x = 0 := by
  rw [countTasks_eq_zero]
  intro t ht hid
  unfold poolTasks at ht
  have ht1 := mem_sortDescBySize.mp ht
  rcases List.mem_filterMap.mp ht1 with ⟨i, hi, hlook⟩
  have hti : t.source_file_id = i := lookupCur_id hlook
  have hix : i = x := by rw [← hti, hid]
  exact hx (hix ▸ hi)

/-! ## Helper lemmas: uniqueness, batch provenance, dict identity -/

theorem countStr_pos_of_mem {l : List String} {x : String} (h : x ∈ l) :
    1 ≤ countStr l x := by
  have hm : x ∈ l.filter (fun y => y = x) := List.mem_filter.mpr ⟨h, by simp⟩
  have := List.length_pos.mpr (List.ne_nil_of_mem hm)
  simpa [countStr] using this

theorem countStr_le_one_of_nodup {l : List String} (h : l.Nodup) (x : String) :
    countStr l x ≤ 1 := by
  induction l with
  | nil => simp [countStr]
  | cons a rest ih =>
    have hna : a ∉ rest := (List.nodup_cons.mp h).1
    have hr := ih (List.nodup_cons.mp h).2
    unfold countStr at *
    rw [List.filter_cons]
    by_cases hax : a = x
    · rw [if_pos (by simp [hax])]
      have h0 : (rest.filter (fun y => y = x)).length = 0 := by
        have h1 := countStr_eq_zero.mpr (hax ▸ hna)
        simpa [countStr] using h1
      simp only [List.length_cons]
      omega
    · rw [if_neg (by simp [hax])]
      exact hr

theorem exists_of_countTasks_pos {l : List PTask} {x : String}
    (h : 1 ≤ countTasks l x) : ∃ m ∈ l, m.source_file_id = x := by
  by_contra hc
  push_neg at hc
  have : countTasks l x = 0 := countTasks_eq_zero.mpr hc
  omega

theorem exists_pair_of_countBatches_pos {bl : List PBatch} {x : String}
    (h : 1 ≤ countBatches bl x) :
    ∃ b ∈ bl, ∃ t ∈ b.source_tasks, t.source_file_id = x := by
  induction bl with
  | nil => simp [countBatches] at h
  | cons b rest ih =>
    rw [countBatches_cons] at h
    by_cases hb : 1 ≤ countTasks b.source_tasks x
    · obtain ⟨m, hm, hmx⟩ := exists_of_countTasks_pos hb
      exact ⟨b, List.mem_cons_self b rest, m, hm, hmx⟩
    · have : 1 ≤ countBatches rest x := by omega
      obtain ⟨b', hb', m, hm, hmx⟩ := ih this
      exact ⟨b', List.mem_cons_of_mem b hb', m, hm, hmx⟩

theorem countId_pos_of_pair_mem {p : CatPlan} {bid : String} {t : PTask} {x : String}
    (h : (bid, t) ∈ flattenPairs p) (hid : t.source_file_id = x) :
    1 ≤ countId p x := by
  have hm : (bid, t) ∈ (flattenPairs p).filter (fun pr => pr.2.source_file_id = x) :=
    List.mem_filter.mpr ⟨h, by simp [hid]⟩
  have := List.length_pos.mpr (List.ne_nil_of_mem hm)
  simpa [countId, countPairs] using this

theorem rebuilt_sum_le (cur : List PTask) (oldIds : List String)
    (bs : List PBatch) (x : String) :
    (bs.map (fun b =>
      countTasks ((rebuildMembers cur oldIds b.source_tasks).getD []) x)).sum
      ≤ countBatches bs x := by
  induction bs with
  | nil => simp [countBatches]
  | cons b rest ih =>
    rw [List.map_cons, List.sum_cons, countBatches_cons]
    have hb : countTasks ((rebuildMembers cur oldIds b.source_tasks).getD []) x
        ≤ countTasks b.source_tasks x := by
      cases hms : rebuildMembers cur oldIds b.source_tasks with
      | none => simp [countTasks]
      | some ms => simpa using rebuildMembers_count hms x
    omega

theorem nodup_key_inj {l : List PBatch} (h : (l.map (·.batch_id)).Nodup)
    {a b : PBatch} (ha : a ∈ l) (hb : b ∈ l) (hk : a.batch_id = b.batch_id) :
    a = b := by
  induction l with
  | nil => cases ha
  | cons c rest ih =>
    rw [List.map_cons, List.nodup_cons] at h
    rcases List.mem_cons.mp ha with ha1 | ha1 <;>
      rcases List.mem_cons.mp hb with hb1 | hb1
    · rw [ha1, hb1]
    · exfalso
      apply h.1
      rw [← ha1, hk]
      exact List.mem_map_of_mem _ hb1
    · exfalso
      apply h.1
      rw [← hb1, ← hk]
      exact List.mem_map_of_mem _ ha1
    · exact ih h.2 ha1 hb1

theorem batch_mem_setCat_append {p : CatPlan} {cat : String} {nb b' : PBatch}
    (h : ∃ q ∈ p, b' ∈ q.2) :
    ∃ q ∈ setCat p cat (getCat p cat ++ [nb]), b' ∈ q.2 := by
  obtain ⟨q, hq, hb⟩ := h
  induction p with
  | nil => cases hq
  | cons r rest ih =>
    by_cases hr : r.1 = cat
    · have hset : setCat (r :: rest) cat (getCat (r :: rest) cat ++ [nb])
          = (cat, getCat (r :: rest) cat ++ [nb]) :: rest := by
        simp [setCat, hr]
      rw [hset]
      rcases List.mem_cons.mp hq with h1 | h1
      · refine ⟨(cat, getCat (r :: rest) cat ++ [nb]),
          List.mem_cons_self _ _, ?_⟩
        have hg : getCat (r :: rest) cat = r.2 := by
          have : r = (r.1, r.2) := rfl
          rw [this, getCat_cons, if_pos hr]
        rw [hg]
        exact List.mem_append_left _ (h1 ▸ hb)
      · exact ⟨q, List.mem_cons_of_mem _ h1, hb⟩
    · have hset : setCat (r :: rest) cat (getCat (r :: rest) cat ++ [nb])
          = r :: setCat rest cat (getCat rest cat ++ [nb]) := by
        have : r = (r.1, r.2) := rfl
        rw [this, getCat_cons, if_neg hr]
        simp [setCat, hr]
      rw [hset]
      rcases List.mem_cons.mp hq with h1 | h1
      · exact ⟨r, List.mem_cons_self _ _, h1 ▸ hb⟩
      · obtain ⟨q', hq', hb'⟩ := ih h1
        exact ⟨q', List.mem_cons_of_mem _ hq', hb'⟩

theorem rebuildStage_batch_mono {cur : List PTask} {oldIds : List String} :
    ∀ {bs : List PBatch} {p0 p1 : CatPlan} {b' : PBatch},
      rebuildStage cur oldIds p0 bs = some p1 →
      (∃ q ∈ p0, b' ∈ q.2) → ∃ q ∈ p1, b' ∈ q.2 := by
  intro bs
  induction bs with
  | nil =>
    intro p0 p1 b' h hq
    have hp : p1 = p0 := (Option.some.inj h).symm
    rw [hp]
    exact hq
  | cons b rest ih =>
    intro p0 p1 b' h hq
    simp only [rebuildStage] at h
    cases hms : rebuildMembers cur oldIds b.source_tasks with
    | none => simp only [hms] at h; exact absurd h (by simp)
    | some ms =>
      simp only [hms] at h
      by_cases he : ms.isEmpty
      · rw [if_pos he] at h
        exact ih h hq
      · rw [if_neg he] at h
        exact ih h (batch_mem_setCat_append hq)

theorem rebuildStage_batch_mem {cur : List PTask} {oldIds : List String} :
    ∀ {bs : List PBatch} {p0 p1 : CatPlan} {b : PBatch} {ms : List PTask},
      rebuildStage cur oldIds p0 bs = some p1 → b ∈ bs →
      rebuildMembers cur oldIds b.source_tasks = some ms → ms ≠ [] →
      ∃ q ∈ p1, (⟨b.batch_id, ms⟩ : PBatch) ∈ q.2 := by
  intro bs
  induction bs with
  | nil => intro p0 p1 b ms _ hb; cases hb
  | cons b0 rest ih =>
    intro p0 p1 b ms h hb hms hne
    simp only [rebuildStage] at h
    rcases List.mem_cons.mp hb with hb1 | hb1
    · subst hb1
      simp only [hms] at h
      have he : ms.isEmpty = false := by
        cases ms with
        | nil => exact absurd rfl hne
        | cons a as => rfl
      rw [he] at h
      simp only [Bool.false_eq_true, if_false] at h
      refine rebuildStage_batch_mono h ?_
      refine ⟨(catOf b.batch_id, getCat p0 (catOf b.batch_id) ++ [⟨b.batch_id, ms⟩]),
        setCat_self_mem _ _ _, ?_⟩
      exact List.mem_append_right _ (List.mem_singleton.mpr rfl)
    · cases hms0 : rebuildMembers cur oldIds b0.source_tasks with
      | none => simp only [hms0] at h; exact absurd h (by simp)
      | some ms0 =>
        simp only [hms0] at h
        by_cases he : ms0.isEmpty
        · rw [if_pos he] at h
          exact ih h hb1 hms hne
        · rw [if_neg he] at h
          exact ih h hb1 hms hne

theorem insertKeepPosBy_notmem {key : α → String} {l : List α} {a : α}
    (h : ∀ b ∈ l, key b ≠ key a) :
    insertKeepPosBy key l a = l ++ [a] := by
  induction l with
  | nil => rfl
  | cons b rest ih =>
    have hb : key b ≠ key a := h b (List.mem_cons_self b rest)
    rw [insertKeepPosBy, if_neg hb, ih (fun c hc => h c (List.mem_cons_of_mem b hc))]
    rfl

theorem foldl_insertKeepPosBy_nodup {key : α → String} :
    ∀ {l acc : List α}, (((acc ++ l).map key)).Nodup →
      l.foldl (insertKeepPosBy key) acc = acc ++ l := by
  intro l
  induction l with
  | nil => intro acc _; simp
  | cons b rest ih =>
    intro acc h
    rw [List.foldl_cons]
    have hins : insertKeepPosBy key acc b = acc ++ [b] := by
      apply insertKeepPosBy_notmem
      intro c hc hEq
      rw [List.map_append, List.nodup_append] at h
      exact h.2.2 (List.mem_map_of_mem key hc)
        (by rw [hEq]; exact List.mem_map_of_mem key (List.mem_cons_self b rest))
    rw [hins, ih (by simpa using h)]
    simp

theorem oldBatchesOf_eq_of_nodup {lp : LastPlan}
    (h : ((lp.concatenation_plan.flatMap (·.2)).map (·.batch_id)).Nodup) :
    oldBatchesOf lp = lp.concatenation_plan.flatMap (·.2) := by
  unfold oldBatchesOf
  have h2 := @foldl_insertKeepPosBy_nodup PBatch (·.batch_id)
    (lp.concatenation_plan.flatMap (·.2)) []
  simp only [List.nil_append] at h2
  exact h2 h

theorem rebuildStage_isSome {cur : List PTask} {oldIds : List String} :
    ∀ {bs : List PBatch} {p0 : CatPlan},
      (∀ b ∈ bs, (rebuildMembers cur oldIds b.source_tasks).isSome) →
      (rebuildStage cur oldIds p0 bs).isSome := by
  intro bs
  induction bs with
  | nil => intro p0 _; simp [rebuildStage]
  | cons b rest ih =>
    intro p0 h
    have hb := h b (List.mem_cons_self b rest)
    simp only [rebuildStage]
    cases hms : rebuildMembers cur oldIds b.source_tasks with
    | none => rw [hms] at hb; simp at hb
    | some ms =>
      exact ih (fun c hc => h c (List.mem_cons_of_mem b hc))

theorem countId_eq_flat (p : CatPlan) (x : String) :
    countId p x = countBatches (p.flatMap (·.2)) x := by
  induction p with
  | nil => rfl
  | cons q rest ih =>
    rw [countId_cons, List.flatMap_cons, countBatches_append, ih]

theorem genDiff_eq_nil_of_agree {o n : CatPlan}
    (h : ∀ id, fileToBatch o id = fileToBatch n id) : genDiff o n = [] := by
  unfold genDiff
  induction allIds o n with
  | nil => rfl
  | cons i rest ih =>
    rw [List.filterMap_cons]
    simp [h i, ih]

theorem map_congr_mem {α β : Type} {l : List α} {f g : α → β}
    (h : ∀ a ∈ l, f a = g a) : l.map f = l.map g := by
  induction l with
  | nil => rfl
  | cons a rest ih =>
    rw [List.map_cons, List.map_cons, h a (List.mem_cons_self a rest),
      ih (fun b hb => h b (List.mem_cons_of_mem a hb))]

theorem map_eq_self_mem {α : Type} {l : List α} {f : α → α}
    (h : ∀ a ∈ l, f a = a) : l.map f = l := by
  have h2 : l.map f = l.map (fun a => a) := map_congr_mem h
  simpa using h2

/-! ## Claim theorems: retention and stability of the planner -/

/-- Claim C5 (amended): a previously existing batch whose rebuilt
member list (current weights, deleted members dropped) still fits the
capacity limit keeps all its retained members under its old batch id in
the final plan; but when the rebuilt total exceeds the limit, the WHOLE
batch is dissolved: no batch carrying its id survives the
deconstruction step that precedes placement, and every rebuilt member's
id joins the to-place pool ids (to be re-placed like a new item), which
is how the source handles over-limit retained batches instead of the
claimed largest-first eviction with batch shrinking. -/
theorem C5_amended_batch_kept_or_dissolved
    (limit : Nat) (tasks : List PTask) (lp : LastPlan) (B : PBatch)
    (ms : List PTask) (p1 : CatPlan)
    (hB : B ∈ oldBatchesOf lp)
    (hre : rebuildMembers (currentTasks tasks) (oldIdsOf (some lp)) B.source_tasks
      = some ms)
    (h1 : rebuildStage (currentTasks tasks) (oldIdsOf (some lp)) []
      (oldBatchesOf lp) = some p1)
    (hkeys : ((oldBatchesOf lp).map (·.batch_id)).Nodup)
    (huniq : ((oldBatchesOf lp).flatMap
      (fun b => b.source_tasks.map (·.source_file_id))).Nodup)
    (hold : ∀ b ∈ oldBatchesOf lp, ∀ m ∈ b.source_tasks,
      m.source_file_id ∈ oldIdsOf (some lp)) :
    (totalSize ms ≤ limit →
      ∀ t ∈ ms, ∀ p, plan_concatenation limit tasks (some lp) = some p →
        fileToBatch p t.source_file_id = some B.batch_id) ∧
    (¬ totalSize ms ≤ limit →
      (∀ cat bl, (cat, bl) ∈ (deconstructStage limit p1).1 →
        ∀ b ∈ bl, b.batch_id ≠ B.batch_id) ∧
      (∀ t ∈ ms, t.source_file_id ∈ (deconstructStage limit p1).2)) := by
  have hcb : ∀ x, countBatches (oldBatchesOf lp) x ≤ 1 := by
    intro x
    rw [← countStr_flatMap_ids]
    exact countStr_le_one_of_nodup huniq x
  constructor
  · intro hfits t ht p hp
    have hne : ms ≠ [] := List.ne_nil_of_mem ht
    have hx1 : 1 ≤ countTasks ms t.source_file_id := countTasks_pos_of_mem ht
    have hfB : countTasks ((rebuildMembers (currentTasks tasks)
        (oldIdsOf (some lp)) B.source_tasks).getD []) t.source_file_id
        = countTasks ms t.source_file_id := by rw [hre]; rfl
    have hsum_ge : countTasks ms t.source_file_id ≤
        ((oldBatchesOf lp).map (fun b =>
          countTasks ((rebuildMembers (currentTasks tasks)
            (oldIdsOf (some lp)) b.source_tasks).getD []) t.source_file_id)).sum := by
      rw [← hfB]
      exact List.single_le_sum (fun a _ => Nat.zero_le a) _
        (List.mem_map_of_mem _ hB)
    have hsum_le := rebuilt_sum_le (currentTasks tasks) (oldIdsOf (some lp))
      (oldBatchesOf lp) t.source_file_id
    have hcount1 : countId p1 t.source_file_id = 1 := by
      have h := rebuildStage_count h1 t.source_file_id
      have h0 : countId ([] : CatPlan) t.source_file_id = 0 := rfl
      have := hcb t.source_file_id
      omega
    have hpair1 : (B.batch_id, t) ∈ flattenPairs p1 :=
      rebuildStage_pair_mem h1 hB hre ht
    obtain ⟨q, hq, hmemb⟩ := rebuildStage_batch_mem h1 hB hre hne
    have hpair2 : (B.batch_id, t) ∈ flattenPairs (deconstructStage limit p1).1 :=
      @deconstruct_pair_mem limit p1 q.1 q.2 ⟨B.batch_id, ms⟩ t hq hmemb hfits ht
    have hdec := countId_deconstruct limit p1 t.source_file_id
    have hcount2 : countId (deconstructStage limit p1).1 t.source_file_id = 1 := by
      have hge := countId_pos_of_pair_mem hpair2 rfl
      omega
    have hdecx : t.source_file_id ∉ (deconstructStage limit p1).2 := by
      apply countStr_eq_zero.mp
      omega
    have hxold : t.source_file_id ∈ oldIdsOf (some lp) := by
      have hle := rebuildMembers_count hre t.source_file_id
      obtain ⟨m, hm, hmx⟩ := exists_of_countTasks_pos (le_trans hx1 hle)
      exact hmx ▸ hold B hB m hm
    have hxpool : t.source_file_id ∉ poolIds (currentTasks tasks)
        (oldIdsOf (some lp)) (deconstructStage limit p1).2 := by
      intro hmem
      rcases mem_poolIds.mp hmem with ⟨-, h2⟩ | h2
      · exact h2 hxold
      · exact hdecx h2
    have hpool0 := @poolTasks_count_zero limit (currentTasks tasks)
      (oldIdsOf (some lp)) p1 t.source_file_id hxpool
    have hpfin : p = finishPlan limit (currentTasks tasks) (oldIdsOf (some lp)) p1 := by
      unfold plan_concatenation at hp
      have hopt : oldBatchesOpt (some lp) = oldBatchesOf lp := rfl
      rw [hopt, h1] at hp
      exact (Option.some.inj hp).symm
    have hcountp : countId p t.source_file_id = 1 := by
      rw [hpfin]
      unfold finishPlan
      rw [countId_placeStage]
      omega
    have hpairp : (B.batch_id, t) ∈ flattenPairs p := by
      rw [hpfin]
      unfold finishPlan
      exact mem_flattenPairs_placeStage hpair2
    exact fileToBatch_of_unique hcountp hpairp rfl
  · intro hnofits
    constructor
    · intro cat bl hq b hb heqid
      obtain ⟨bl0, hbl0, hblEq⟩ := deconstruct_batch_prov hq
      rw [hblEq] at hb
      have hb0 : b ∈ bl0 := (List.mem_filter.mp hb).1
      have hbfits : totalSize b.source_tasks ≤ limit :=
        of_decide_eq_true (List.mem_filter.mp hb).2
      rcases rebuildStage_batch_prov h1 hbl0 hb0 with ⟨q0, hq0, -⟩ | ⟨b1, hb1, ms1, hms1, hbEq⟩
      · cases hq0
      · have hid1 : b1.batch_id = B.batch_id := by
          rw [hbEq] at heqid
          exact heqid
        have hb1B : b1 = B := nodup_key_inj hkeys hb1 hB hid1
        rw [hb1B] at hms1
        have hms : ms1 = ms := Option.some.inj (hms1.symm.trans hre)
        rw [hbEq, hms] at hbfits
        exact hnofits hbfits
    · intro t ht
      have hne : ms ≠ [] := List.ne_nil_of_mem ht
      obtain ⟨q, hq, hmemb⟩ := rebuildStage_batch_mem h1 hB hre hne
      exact @deconIds_mem limit p1 q.1 q.2 ⟨B.batch_id, ms⟩ t hq hmemb hnofits ht

/-- Claim C5 witness: the dissolution half at the concrete over-limit
previous batch holding X:60 and Y:50 with limit 100: X's id lands in
the to-place pool ids of the deconstruction stage. -/
theorem C5_amended_witness :
    ("X" : String) ∈ (deconstructStage 100
      [("pdf", [⟨"pdf_batch_1", c5tasks⟩])]).2 :=
  ((C5_amended_batch_kept_or_dissolved 100 c5tasks c5last
      ⟨"pdf_batch_1", c5tasks⟩ c5tasks
      [("pdf", [⟨"pdf_batch_1", c5tasks⟩])]
      (by decide) (by decide) (by decide) (by decide) (by decide)
      (by decide)).2 (by decide)).2
    ⟨"X", "DIRECT_INCLUDE", "pdf", 60⟩ (by decide)

/-- Claim C6 (amended): when the current item set equals the previous
run's item set, the previous batches are unchanged and well formed, and
additionally every previous batch's total weight is within the capacity
limit, the planner succeeds, assigns every item to the same batch id as
before, and the resulting diff is empty (in particular it has no MOVED
entries).  The extra total-weight proviso is forced by the
counterexample: an oversized previous batch is deconstructed and
re-minted under a fresh number even on identical inputs. -/
theorem C6_amended_stability
    (limit : Nat) (tasks : List PTask) (lp : LastPlan)
    (hpt : lp.processing_tasks = tasks)
    (hkeys : ((lp.concatenation_plan.flatMap (·.2)).map (·.batch_id)).Nodup)
    (hlook : ∀ b ∈ lp.concatenation_plan.flatMap (·.2), ∀ t ∈ b.source_tasks,
      lookupCur (currentTasks tasks) t.source_file_id = some t)
    (hfit : ∀ b ∈ lp.concatenation_plan.flatMap (·.2),
      totalSize b.source_tasks ≤ limit)
    (huniq : ((lp.concatenation_plan.flatMap (·.2)).flatMap
      (fun b => b.source_tasks.map (·.source_file_id))).Nodup) :
    (plan_concatenation limit tasks (some lp)).isSome = true ∧
    ∀ p, plan_concatenation limit tasks (some lp) = some p →
      (∀ id, fileToBatch p id = fileToBatch lp.concatenation_plan id) ∧
      genDiff lp.concatenation_plan p = [] := by
  have hflat : oldBatchesOf lp = lp.concatenation_plan.flatMap (·.2) :=
    oldBatchesOf_eq_of_nodup hkeys
  have hself : ∀ b ∈ lp.concatenation_plan.flatMap (·.2),
      rebuildMembers (currentTasks tasks) (oldIdsOf (some lp)) b.source_tasks
        = some b.source_tasks :=
    fun b hb => rebuildMembers_self (hlook b hb)
  have hsome : (rebuildStage (currentTasks tasks) (oldIdsOf (some lp)) []
      (lp.concatenation_plan.flatMap (·.2))).isSome := by
    apply rebuildStage_isSome
    intro b hb
    rw [hself b hb]
    rfl
  obtain ⟨p1, hp1⟩ := Option.isSome_iff_exists.mp hsome
  have hplan : plan_concatenation limit tasks (some lp)
      = some (finishPlan limit (currentTasks tasks) (oldIdsOf (some lp)) p1) := by
    unfold plan_concatenation
    have hopt : oldBatchesOpt (some lp) = oldBatchesOf lp := rfl
    rw [hopt, hflat, hp1]
    rfl
  have hprov : ∀ q ∈ p1, ∀ b ∈ q.2,
      b ∈ lp.concatenation_plan.flatMap (·.2) := by
    intro q hq b hb
    rcases rebuildStage_batch_prov hp1 hq hb with
      ⟨q0, hq0, -⟩ | ⟨b1, hb1, ms1, hms1, hbEq⟩
    · cases hq0
    · have hms : ms1 = b1.source_tasks :=
        Option.some.inj ((hself b1 hb1).symm.trans hms1).symm
      have hbb1 : b = b1 := by rw [hbEq, hms]
      rw [hbb1]
      exact hb1
  have hp2 : (deconstructStage limit p1).1 = p1 := by
    rw [deconstructStage_fst]
    apply map_eq_self_mem
    intro q hq
    have hfil : q.2.filter (fun b => totalSize b.source_tasks ≤ limit) = q.2 := by
      apply List.filter_eq_self.mpr
      intro b hb
      simpa using hfit b (hprov q hq b hb)
    rw [hfil]
  have hdec2 : (deconstructStage limit p1).2 = [] := by
    rw [deconstructStage_snd]
    have hinner : p1.flatMap
        (fun q => q.2.filter (fun b => ¬ (totalSize b.source_tasks ≤ limit))) = [] := by
      apply List.flatMap_eq_nil_iff.mpr
      intro q hq
      apply filter_eq_nil_of_all_false
      intro b hb
      simpa using hfit b (hprov q hq b hb)
    rw [hinner]
    simp
  have hpool : poolTasks limit (currentTasks tasks) (oldIdsOf (some lp)) p1 = [] := by
    unfold poolTasks
    rw [hdec2]
    have hids : (((currentTasks tasks).map (·.source_file_id)).filter
        (fun i => ¬ i ∈ oldIdsOf (some lp))) = [] := by
      apply filter_eq_nil_of_all_false
      intro i hi
      rcases List.mem_map.mp hi with ⟨u, hu, hEq⟩
      have hut : u ∈ tasks := List.mem_of_mem_filter hu
      have : i ∈ oldIdsOf (some lp) := by
        show i ∈ lp.processing_tasks.map (·.source_file_id)
        rw [hpt, ← hEq]
        exact List.mem_map_of_mem _ hut
      simpa using this
    unfold poolIds
    rw [List.append_nil, hids]
    rfl
  have hfinish : finishPlan limit (currentTasks tasks) (oldIdsOf (some lp)) p1 = p1 := by
    unfold finishPlan
    rw [hpool, hp2]
    rfl
  refine ⟨by rw [hplan]; rfl, ?_⟩
  intro p hp
  have hpp1 : p = p1 := by
    rw [hplan] at hp
    rw [← Option.some.inj hp, hfinish]
  subst hpp1
  have hmaps : ∀ id, fileToBatch p id = fileToBatch lp.concatenation_plan id := by
    intro x
    have hc1 : countId p x = countBatches (lp.concatenation_plan.flatMap (·.2)) x := by
      have h := rebuildStage_count hp1 x
      have h0 : countId ([] : CatPlan) x = 0 := rfl
      have hcg : (lp.concatenation_plan.flatMap (·.2)).map
          (fun b => countTasks ((rebuildMembers (currentTasks tasks)
            (oldIdsOf (some lp)) b.source_tasks).getD []) x)
          = (lp.concatenation_plan.flatMap (·.2)).map
            (fun b => countTasks b.source_tasks x) := by
        apply map_congr_mem
        intro b hb
        rw [hself b hb]
        rfl
      rw [hcg] at h
      have : countBatches (lp.concatenation_plan.flatMap (·.2)) x
          = ((lp.concatenation_plan.flatMap (·.2)).map
            (fun b => countTasks b.source_tasks x)).sum := rfl
      omega
    have hcPrev := countId_eq_flat lp.concatenation_plan x
    by_cases hz : countBatches (lp.concatenation_plan.flatMap (·.2)) x = 0
    · have hz1 : fileToBatch p x = none := fileToBatch_of_zero (by omega)
      have hz2 : fileToBatch lp.concatenation_plan x = none := fileToBatch_of_zero (by omega)
      rw [hz1, hz2]
    · have hle1 : countBatches (lp.concatenation_plan.flatMap (·.2)) x ≤ 1 := by
        rw [← countStr_flatMap_ids]
        exact countStr_le_one_of_nodup huniq x
      have hone : countBatches (lp.concatenation_plan.flatMap (·.2)) x = 1 := by
        omega
      have hpos : 1 ≤ countBatches (lp.concatenation_plan.flatMap (·.2)) x := by
        omega
      obtain ⟨b, hb, t, ht, htx⟩ := exists_pair_of_countBatches_pos hpos
      have hpairPrev : (b.batch_id, t) ∈ flattenPairs lp.concatenation_plan := by
        rcases List.mem_flatMap.mp hb with ⟨q, hq, hbq⟩
        refine mem_flattenPairs_of_entry hq ?_
        exact List.mem_flatMap.mpr ⟨b, hbq, List.mem_map_of_mem _ ht⟩
      have hpairNew : (b.batch_id, t) ∈ flattenPairs p :=
        rebuildStage_pair_mem hp1 hb (hself b hb) ht
      have hu1 : fileToBatch p x = some b.batch_id :=
        fileToBatch_of_unique (by omega) hpairNew htx
      have hu2 : fileToBatch lp.concatenation_plan x = some b.batch_id :=
        fileToBatch_of_unique (by omega) hpairPrev htx
      rw [hu1, hu2]
  exact ⟨hmaps, genDiff_eq_nil_of_agree (fun id => (hmaps id).symm)⟩

/-- Claim C6 witness: stability at a concrete fitting previous plan:
two tasks kept in one batch, replanned with identical inputs. -/
theorem C6_amended_witness :
    (plan_concatenation 100 c6stableTasks (some c6stableLast)).isSome = true ∧
    genDiff c6stableLast.concatenation_plan
      [("pdf", [⟨"pdf_batch_1", c6stableTasks⟩])] = [] := by
  have h := C6_amended_stability 100 c6stableTasks c6stableLast rfl
    (by decide) (by decide) (by decide) (by decide)
  exact ⟨h.1, (h.2 [("pdf", [⟨"pdf_batch_1", c6stableTasks⟩])] (by decide)).2⟩

end DriveScanner
